import Mathlib

/-!
# Myers diff (`myersdiff.go`): a shallow embedding and its verification

The Go package computes a shortest edit script between two slices of strings
with the greedy algorithm of Myers and renders it as text.

Modelling conventions.

* Go `int` is modelled by `Int`.  The integers of the program are indices,
  diagonals and depths, each a sum of a few slice lengths, so that 64-bit
  overflow does not occur and is not modelled.
* Slices are `List`s.  An indexing `s[i]` that Go would answer with a run-time
  panic (index out of range) makes the embedded function return `none`.
* Loops are structural recursions on a fuel argument; the callers pass a fuel
  that is shown to be sufficient, and a loop that runs out of fuel returns
  `none` as well.  Theorems about results therefore always state that the
  result is `some _`.
* A frontier `map[int]int` is an association list; reading a missing key
  gives the zero value `0`, as in Go.
-/

namespace Myersdiff

/-! ## Data model -/

/-- The three operation kinds (`opType` with constants `ADD`, `DELETE`, `NOOP`). -/
inductive opType where
  | ADD : opType
  | DELETE : opType
  | NOOP : opType
  deriving DecidableEq

open opType

/-- The options record `DiffOptions`. -/
structure DiffOptions where
  PrintAdd : Bool
  PrintNoOp : Bool
  PrintDelete : Bool
  deriving DecidableEq

/-- The default options of `NewOptions`: everything is printed. -/
def NewOptions : DiffOptions :=
  { PrintAdd := true, PrintNoOp := true, PrintDelete := true }

/-- A frontier, Go type `map[int]int`: diagonal `k` to x-coordinate. -/
abbrev Frontier := List (Int × Int)

/-- Map read `v[k]`; a missing key reads as `0`. -/
def Frontier.get (v : Frontier) (k : Int) : Int :=
  match v.lookup k with
  | some x => x
  | none => 0

/-- Map write `v[k] = x`: the new binding shadows any older one. -/
def Frontier.set (v : Frontier) (k x : Int) : Frontier := (k, x) :: v

/-- The search history, Go type `trace`. -/
structure trace where
  v : List Frontier
  srcLen : Int
  dstLen : Int
  deriving DecidableEq

/-- Method `trace.length`. -/
def trace.length (t : trace) : Int := (t.v.length : Int)

/-- Method `trace.append`. -/
def trace.append (t : trace) (v : Frontier) : trace := { t with v := t.v ++ [v] }

/-- Slice indexing `s[i]` with a Go `int` index: `none` stands for the
index-out-of-range panic. -/
def index {α : Type} (s : List α) (i : Int) : Option α :=
  if i < 0 then none else s[i.toNat]?

/-! ## The trace builder `createTrace` -/

/-- The depth-0 loop of `createTrace` (lines 119-121): advance `firstDiff`
while both slices have an element there and the elements are equal. -/
def firstDiffLoop (src dst : List String) : Nat → Int → Option Int
  | 0, _ => none
  | fuel + 1, firstDiff =>
    if (src.length : Int) > firstDiff ∧ (dst.length : Int) > firstDiff then
      match index src firstDiff, index dst firstDiff with
      | some a, some b =>
        if a = b then firstDiffLoop src dst fuel (firstDiff + 1) else some firstDiff
      | _, _ => none
    else some firstDiff

/-- The snake loop of `createTrace` (lines 152-154). -/
def snake (src dst : List String) : Nat → Int → Int → Option (Int × Int)
  | 0, _, _ => none
  | fuel + 1, x, y =>
    if x < (src.length : Int) ∧ y < (dst.length : Int) then
      match index src x, index dst y with
      | some a, some b =>
        if a = b then snake src dst fuel (x + 1) (y + 1) else some (x, y)
      | _, _ => none
    else some (x, y)

/-- The choice of the start point on diagonal `k` at depth `d`
(the `switch` of lines 135-146). -/
def startX (lastV : Frontier) (d k : Int) : Int :=
  if k = -d then lastV.get (k + 1)
  else if k ≠ d ∧ lastV.get (k - 1) < lastV.get (k + 1) then lastV.get (k + 1)
  else lastV.get (k - 1) + 1

/-- The loop over the diagonals `k = -d, -d+2, ..., d` (lines 134-163).
The result is the frontier `v` and whether the loop left through the
`return` of line 161 (the end point was reached). -/
def kLoop (src dst : List String) (d : Int) (lastV : Frontier) :
    Nat → Int → Frontier → Option (Frontier × Bool)
  | 0, _, _ => none
  | fuel + 1, k, v =>
    if k ≤ d then
      let x := startX lastV d k
      let y := x - k
      match snake src dst (src.length + 1) x y with
      | none => none
      | some (x, y) =>
        let v := v.set k x
        if x = (src.length : Int) ∧ y = (dst.length : Int) then some (v, true)
        else kLoop src dst d lastV fuel (k + 2) v
    else some (v, false)

/-- The loop over the depths `d = 0, ..., maxLen` (lines 111-165).  The map
of the current depth is appended to the trace when control leaves the
iteration (in Go the map is appended empty and filled in place).  The boolean
of the result tells whether the function returned from inside the loop
(lines 127 and 161, `true`) or after the loop was exhausted (line 165,
`false`). -/
def dLoop (src dst : List String) (maxLen : Int) :
    Nat → Int → trace → Option (trace × Bool)
  | 0, _, _ => none
  | fuel + 1, d, t =>
    if d ≤ maxLen then
      if d = 0 then
        match firstDiffLoop src dst (src.length + 1) 0 with
        | none => none
        | some firstDiff =>
          let v := Frontier.set [] 0 firstDiff
          if firstDiff = (src.length : Int) ∧ firstDiff = (dst.length : Int) then
            some (t.append v, true)
          else dLoop src dst maxLen fuel (d + 1) (t.append v)
      else
        match index t.v (d - 1) with
        | none => none
        | some lastV =>
          match kLoop src dst d lastV (d.toNat + 2) (-d) [] with
          | none => none
          | some (v, true) => some (t.append v, true)
          | some (v, false) => dLoop src dst maxLen fuel (d + 1) (t.append v)
    else some (t, false)

/-- The function `createTrace` together with the flag of `dLoop`. -/
def createTraceAux (src dst : List String) : Option (trace × Bool) :=
  dLoop src dst ((src.length : Int) + (dst.length : Int))
    (src.length + dst.length + 2) 0
    { v := [], srcLen := (src.length : Int), dstLen := (dst.length : Int) }

/-- The function `createTrace`. -/
def createTrace (src dst : List String) : Option trace :=
  (createTraceAux src dst).map Prod.fst

/-! ## The script reconstructor `createScript` -/

/-- The loop of lines 192-196: one `NOOP` per diagonal step back. -/
def noopLoop : Nat → Int → Int → Int → Int → List opType →
    Option (Int × Int × List opType)
  | 0, _, _, _, _, _ => none
  | fuel + 1, x, y, prevX, prevY, script =>
    if x > prevX ∧ y > prevY then
      noopLoop fuel (x - 1) (y - 1) prevX prevY (script ++ [NOOP])
    else some (x, y, script)

/-- The predecessor diagonal (the `switch` of lines 180-187). -/
def prevDiag (lastV : Frontier) (d k : Int) : Int :=
  if k = -d then k + 1
  else if k ≠ d ∧ lastV.get (k - 1) < lastV.get (k + 1) then k + 1
  else k - 1

/-- The backward loop over the depths (lines 176-204). -/
def scriptLoop (t : trace) : Nat → Int → Int → Int → List opType →
    Option (List opType)
  | 0, _, _, _, _ => none
  | fuel + 1, d, x, y, script =>
    if d > 0 then
      let k := x - y
      match index t.v (d - 1) with
      | none => none
      | some lastV =>
        let prevK := prevDiag lastV d k
        let prevX := lastV.get prevK
        let prevY := prevX - prevK
        match noopLoop ((x - prevX).toNat + 1) x y prevX prevY script with
        | none => none
        | some (x, _, script) =>
          let script := if x = prevX then script ++ [ADD] else script ++ [DELETE]
          scriptLoop t fuel (d - 1) prevX prevY script
    else some script

/-- The function `reverse`: `result[end - i] = s[i]`. -/
def reverse (s : List opType) : List opType := s.reverse

/-- The function `createScript`. -/
def createScript (t : trace) : Option (List opType) :=
  match scriptLoop t t.v.length (t.length - 1) t.srcLen t.dstLen [] with
  | none => none
  | some script =>
    match index t.v 0 with
    | none => none
    | some v0 =>
      let script :=
        if v0.get 0 ≠ 0 then script ++ List.replicate (v0.get 0).toNat NOOP
        else script
      some (reverse script)

/-- The function `shortestEditScript`. -/
def shortestEditScript (src dst : List String) : Option (List opType) :=
  match createTrace src dst with
  | none => none
  | some t => createScript t

/-! ## The renderer `writeDiff` -/

/-- One iteration of the loop of `writeDiff` (lines 71-96) on the state
`(buffer, srcIndex, dstIndex)`. -/
def writeOp (src dst : List String) (opts : DiffOptions) (op : opType) :
    String × Int × Int → Option (String × Int × Int)
  | (buffer, srcIndex, dstIndex) =>
    match op with
    | ADD =>
      if opts.PrintAdd then
        match index dst dstIndex with
        | none => none
        | some line => some (buffer ++ "+ " ++ line ++ "\n", srcIndex, dstIndex + 1)
      else some (buffer, srcIndex, dstIndex + 1)
    | NOOP =>
      if opts.PrintNoOp then
        match index src srcIndex with
        | none => none
        | some line => some (buffer ++ "  " ++ line ++ "\n", srcIndex + 1, dstIndex + 1)
      else some (buffer, srcIndex + 1, dstIndex + 1)
    | DELETE =>
      if opts.PrintDelete then
        match index src srcIndex with
        | none => none
        | some line => some (buffer ++ "- " ++ line ++ "\n", srcIndex + 1, dstIndex)
      else some (buffer, srcIndex + 1, dstIndex)

/-- The loop `for _, op := range script` of `writeDiff`. -/
def writeLoop (src dst : List String) (opts : DiffOptions) :
    List opType → String × Int × Int → Option (String × Int × Int)
  | [], st => some st
  | op :: script, st =>
    match writeOp src dst opts op st with
    | none => none
    | some st => writeLoop src dst opts script st

/-- The function `writeDiff`; the result is the content of the buffer. -/
def writeDiff (src dst : List String) (script : List opType) (opts : DiffOptions) :
    Option String :=
  (writeLoop src dst opts script ("", 0, 0)).map (fun st => st.1)

/-- The function `GenerateDiff`. -/
def GenerateDiff (src dst : List String) (opts : DiffOptions) : Option String :=
  match shortestEditScript src dst with
  | none => none
  | some script => writeDiff src dst script opts

/-! ## Specification-side definitions -/

/-- The elements `src[x]` and `dst[y]` exist and are equal: the edit graph has
a diagonal edge from `(x, y)` to `(x + 1, y + 1)`. -/
def matchAt (src dst : List String) (x y : Int) : Prop :=
  ∃ a, index src x = some a ∧ index dst y = some a

/-- The x-coordinate at which the snake from `(x, y)` ends. -/
def slide (src dst : List String) (x y : Int) : Int :=
  match snake src dst (src.length + 1) x y with
  | some (x', _) => x'
  | none => x

/-- The rule of `startX` on a frontier given as a function. -/
def startXf (f : Int → Int) (d k : Int) : Int :=
  if k = -d then f (k + 1)
  else if k ≠ d ∧ f (k - 1) < f (k + 1) then f (k + 1)
  else f (k - 1) + 1

/-- The rule of `prevDiag` on a frontier given as a function. -/
def prevDiagf (f : Int → Int) (d k : Int) : Int :=
  if k = -d then k + 1
  else if k ≠ d ∧ f (k - 1) < f (k + 1) then k + 1
  else k - 1

/-- The complete frontiers: `frontierV src dst d k` is the x-coordinate that
the search of `createTrace` computes for diagonal `k` at depth `d` when it
is not interrupted by the `return`. -/
def frontierV (src dst : List String) : Nat → Int → Int
  | 0, k => if k = 0 then slide src dst 0 0 else 0
  | d + 1, k =>
    let x := startXf (frontierV src dst d) ((d : Int) + 1) k
    slide src dst x (x - k)

/-- The diagonals of depth `d`: `k = -d, -d + 2, ..., d`. -/
def InKeys (d : Nat) (k : Int) : Prop :=
  -(d : Int) ≤ k ∧ k ≤ (d : Int) ∧ (k + (d : Int)) % 2 = 0

/-- The end point `(len(src), len(dst))` is the point of its diagonal in the
complete frontier of depth `d`. -/
def found (src dst : List String) (d : Nat) : Prop :=
  InKeys d ((src.length : Int) - dst.length) ∧
    frontierV src dst d ((src.length : Int) - dst.length) = (src.length : Int)

/-- The first `i` entries of the complete frontier of depth `d`, as the map
that the loop over the diagonals has built after `i` iterations. -/
def frontierUpTo (src dst : List String) (d : Nat) : Nat → Frontier
  | 0 => []
  | i + 1 =>
    Frontier.set (frontierUpTo src dst d i) (-(d : Int) + 2 * (i : Int))
      (frontierV src dst d (-(d : Int) + 2 * (i : Int)))

/-- The trace of a search that finds the end point at depth `D`: the complete
frontiers of the depths below `D`, and the frontier of depth `D` up to the
diagonal of the end point. -/
def traceV (src dst : List String) (D : Nat) : trace :=
  { v := (List.range D).map (fun d => frontierUpTo src dst d (d + 1)) ++
      [frontierUpTo src dst D
        (((src.length : Int) - (dst.length : Int) + (D : Int)) / 2).toNat.succ]
    srcLen := (src.length : Int)
    dstLen := (dst.length : Int) }

/-- Paths in the edit graph from `(0, 0)`: `Reach src dst d x y` says that
`(x, y)` is reached with exactly `d` horizontal or vertical moves and any
number of diagonal moves over equal elements. -/
inductive Reach (src dst : List String) : Nat → Int → Int → Prop where
  | zero : Reach src dst 0 0 0
  | diag {d : Nat} {x y : Int} :
      Reach src dst d x y → matchAt src dst x y → Reach src dst d (x + 1) (y + 1)
  | right {d : Nat} {x y : Int} : Reach src dst d x y → Reach src dst (d + 1) (x + 1) y
  | down {d : Nat} {x y : Int} : Reach src dst d x y → Reach src dst (d + 1) x (y + 1)

/-- Replay of a script from the cursors `(i, j)`: `DELETE` advances `i`,
`ADD` advances `j`, `NOOP` advances both and requires `src[i] == dst[j]`.
The result is the final pair of cursors, or `none` when an operation overruns
a sequence or a `NOOP` meets different elements. -/
def replay (src dst : List String) : List opType → Nat → Nat → Option (Nat × Nat)
  | [], i, j => some (i, j)
  | ADD :: s, i, j => if j < dst.length then replay src dst s i (j + 1) else none
  | DELETE :: s, i, j => if i < src.length then replay src dst s (i + 1) j else none
  | NOOP :: s, i, j =>
    if i < src.length ∧ j < dst.length ∧ src[i]? = dst[j]? then
      replay src dst s (i + 1) (j + 1)
    else none

/-- The number of operations of kind `op` in a script. -/
def countOp (op : opType) (s : List opType) : Nat := s.count op

/-- The number of `ADD` and `DELETE` operations of a script. -/
def edits (s : List opType) : Nat := countOp ADD s + countOp DELETE s

/-- The operations that lead from the end of the depth-0 snake to the point
of diagonal `k` in the complete frontier of depth `d`, in forward order. -/
def pathOps (src dst : List String) : Nat → Int → List opType
  | 0, _ => []
  | d + 1, k =>
    let pk := prevDiagf (frontierV src dst d) ((d : Int) + 1) k
    let px := frontierV src dst d pk
    let x := startXf (frontierV src dst d) ((d : Int) + 1) k
    pathOps src dst d pk ++ [if x = px then ADD else DELETE] ++
      List.replicate (frontierV src dst (d + 1) k - x).toNat NOOP

/-- The script of the path to the end point at search depth `D`: the `NOOP`s
of the depth-0 snake followed by `pathOps`. -/
def scriptV (src dst : List String) (D : Nat) : List opType :=
  List.replicate (frontierV src dst 0 0).toNat NOOP ++
    pathOps src dst D ((src.length : Int) - (dst.length : Int))

/-- One row of the dynamic-programming table of `editDistance`: the distances
from `a :: src` to the suffixes of the destination, from the row `prev` of
`src`. -/
def editRow (a : String) (prev : List String → Nat) : List String → Nat
  | [] => prev [] + 1
  | b :: dst =>
    if a = b then prev dst else 1 + min (prev (b :: dst)) (editRow a prev dst)

/-- The reference of the minimality property: the insert/delete-only edit
distance by the standard dynamic-programming recurrence. -/
def editDistance : List String → List String → Nat
  | [], dst => dst.length
  | a :: src, dst => editRow a (editDistance src) dst

/-- One row of the table of `lcsLength`. -/
def lcsRow (a : String) (prev : List String → Nat) : List String → Nat
  | [] => 0
  | b :: dst => if a = b then 1 + prev dst else max (prev (b :: dst)) (lcsRow a prev dst)

/-- The length of a longest common subsequence, by the standard recurrence. -/
def lcsLength : List String → List String → Nat
  | [], _ => 0
  | a :: src, dst => lcsRow a (lcsLength src) dst

/-- The reads of `writeDiff` stay in range: replaying the script from the
indices `(i, j)`, every `ADD` is met with `dstIndex < len(dst)` and every
`NOOP` or `DELETE` with `srcIndex < len(src)`. -/
def inRange (src dst : List String) : List opType → Nat → Nat → Bool
  | [], _, _ => true
  | ADD :: s, i, j => decide (j < dst.length) && inRange src dst s i (j + 1)
  | NOOP :: s, i, j => decide (i < src.length) && inRange src dst s (i + 1) (j + 1)
  | DELETE :: s, i, j => decide (i < src.length) && inRange src dst s (i + 1) j

/-- The number of `DELETE` and `NOOP` operations of a script: the source
elements it consumes. -/
def srcCount (s : List opType) : Nat := countOp DELETE s + countOp NOOP s

/-- The number of `ADD` and `NOOP` operations of a script: the destination
elements it consumes. -/
def dstCount (s : List opType) : Nat := countOp ADD s + countOp NOOP s

/-- The line of an operation that meets the source index `i` and the
destination index `j`. -/
def lineOf (src dst : List String) (op : opType) (i j : Nat) : String :=
  match op with
  | ADD => "+ " ++ dst.getD j "" ++ "\n"
  | DELETE => "- " ++ src.getD i "" ++ "\n"
  | NOOP => "  " ++ src.getD i "" ++ "\n"

/-- The line of the operation at position `p` of a script: its indices are
the numbers of earlier `DELETE`/`NOOP` and of earlier `ADD`/`NOOP` operations. -/
def lineAt (src dst : List String) (script : List opType) (p : Nat) : String :=
  match script[p]? with
  | some op => lineOf src dst op (srcCount (script.take p)) (dstCount (script.take p))
  | none => ""

/-- Whether the options print the lines of an operation kind. -/
def printed (opts : DiffOptions) : opType → Bool
  | ADD => opts.PrintAdd
  | NOOP => opts.PrintNoOp
  | DELETE => opts.PrintDelete

/-- Whether the options print the line of the operation at position `p`. -/
def printedAt (opts : DiffOptions) (script : List opType) (p : Nat) : Bool :=
  match script[p]? with
  | some op => printed opts op
  | none => false

/-- Concatenation of lines, in order. -/
def concatLines : List String → String
  | [] => ""
  | a :: l => a ++ concatLines l

/-- The operations of a script from the indices `(i, j)` on, each with its
line. -/
def linesFrom (src dst : List String) : List opType → Nat → Nat → List (opType × String)
  | [], _, _ => []
  | ADD :: s, i, j => (ADD, lineOf src dst ADD i j) :: linesFrom src dst s i (j + 1)
  | NOOP :: s, i, j => (NOOP, lineOf src dst NOOP i j) :: linesFrom src dst s (i + 1) (j + 1)
  | DELETE :: s, i, j => (DELETE, lineOf src dst DELETE i j) :: linesFrom src dst s (i + 1) j

/-! ## Instrumentation of the loops

The functions below follow the control flow of the loops of `createTrace` and
`createScript` and record what the loops do: the iterations they execute, the
elements they read and the steps of the backward walk. -/

/-- The element reads of the depth-0 loop of `createTrace`: `(i, i)` stands
for the evaluation of `src[i] == dst[i]`. -/
def firstDiffReads (src dst : List String) : Nat → Int → List (Int × Int)
  | 0, _ => []
  | fuel + 1, firstDiff =>
    if (src.length : Int) > firstDiff ∧ (dst.length : Int) > firstDiff then
      (firstDiff, firstDiff) ::
        match index src firstDiff, index dst firstDiff with
        | some a, some b =>
          if a = b then firstDiffReads src dst fuel (firstDiff + 1) else []
        | _, _ => []
    else []

/-- The element reads of the snake loop: `(x, y)` stands for the evaluation
of `src[x] == dst[y]`. -/
def snakeReads (src dst : List String) : Nat → Int → Int → List (Int × Int)
  | 0, _, _ => []
  | fuel + 1, x, y =>
    if x < (src.length : Int) ∧ y < (dst.length : Int) then
      (x, y) ::
        match index src x, index dst y with
        | some a, some b => if a = b then snakeReads src dst fuel (x + 1) (y + 1) else []
        | _, _ => []
    else []

/-- The executed iterations of the loop over the diagonals, each as the
depth, the previous frontier `lastV` and the diagonal `k`. -/
def kLoopVisits (src dst : List String) (d : Int) (lastV : Frontier) :
    Nat → Int → List (Int × Frontier × Int)
  | 0, _ => []
  | fuel + 1, k =>
    if k ≤ d then
      let x := startX lastV d k
      let y := x - k
      (d, lastV, k) ::
        match snake src dst (src.length + 1) x y with
        | none => []
        | some (x, y) =>
          if x = (src.length : Int) ∧ y = (dst.length : Int) then []
          else kLoopVisits src dst d lastV fuel (k + 2)
    else []

/-- The executed iterations of the loop over the diagonals in the whole
loop over the depths. -/
def dLoopVisits (src dst : List String) (maxLen : Int) :
    Nat → Int → trace → List (Int × Frontier × Int)
  | 0, _, _ => []
  | fuel + 1, d, t =>
    if d ≤ maxLen then
      if d = 0 then
        match firstDiffLoop src dst (src.length + 1) 0 with
        | none => []
        | some firstDiff =>
          let v := Frontier.set [] 0 firstDiff
          if firstDiff = (src.length : Int) ∧ firstDiff = (dst.length : Int) then []
          else dLoopVisits src dst maxLen fuel (d + 1) (t.append v)
      else
        match index t.v (d - 1) with
        | none => []
        | some lastV =>
          kLoopVisits src dst d lastV (d.toNat + 2) (-d) ++
            match kLoop src dst d lastV (d.toNat + 2) (-d) [] with
            | none => []
            | some (_, true) => []
            | some (v, false) => dLoopVisits src dst maxLen fuel (d + 1) (t.append v)
    else []

/-- The iterations `(d, lastV, k)` of the loop over the diagonals that
`createTrace` executes. -/
def createTraceVisits (src dst : List String) : List (Int × Frontier × Int) :=
  dLoopVisits src dst ((src.length : Int) + (dst.length : Int))
    (src.length + dst.length + 2) 0
    { v := [], srcLen := (src.length : Int), dstLen := (dst.length : Int) }

/-- The point `(x, y)` computed before the snake in the iteration
`(d, lastV, k)` (lines 135-149). -/
def visitStart (v : Int × Frontier × Int) : Int × Int :=
  (startX v.2.1 v.1 v.2.2, startX v.2.1 v.1 v.2.2 - v.2.2)

/-- All element reads `src[x]`, `dst[y]` of `createTrace`: those of the
depth-0 loop and those of the snake of every executed iteration. -/
def createTraceReads (src dst : List String) : List (Int × Int) :=
  firstDiffReads src dst (src.length + 1) 0 ++
    (createTraceVisits src dst).flatMap
      (fun v => snakeReads src dst (src.length + 1) (visitStart v).1 (visitStart v).2)

/-- The keys of `lastV` that the `switch` of `createTrace` reads on diagonal
`k` at depth `d`: `k + 1` on the lowest diagonal, `k - 1` on the highest, both
otherwise. -/
def switchKeys (d k : Int) : List Int :=
  if k = -d then [k + 1] else if k ≠ d then [k - 1, k + 1] else [k - 1]

/-- One iteration of the backward loop of `createScript`. -/
structure BackStep where
  d : Int
  x : Int
  y : Int
  lastV : Frontier
  prevX : Int
  prevY : Int
  xAfter : Int
  yAfter : Int
  op : opType
  deriving DecidableEq

/-- The iterations of the backward loop of `createScript`: the depth and the
point on entry, the previous frontier, the predecessor, the point after the
`NOOP` loop and the operation emitted then. -/
def scriptLoopSteps (t : trace) : Nat → Int → Int → Int → List BackStep
  | 0, _, _, _ => []
  | fuel + 1, d, x, y =>
    if d > 0 then
      let k := x - y
      match index t.v (d - 1) with
      | none => []
      | some lastV =>
        let prevK := prevDiag lastV d k
        let prevX := lastV.get prevK
        let prevY := prevX - prevK
        match noopLoop ((x - prevX).toNat + 1) x y prevX prevY [] with
        | none => []
        | some (x1, y1, _) =>
          { d := d, x := x, y := y, lastV := lastV, prevX := prevX, prevY := prevY,
            xAfter := x1, yAfter := y1, op := if x1 = prevX then ADD else DELETE } ::
            scriptLoopSteps t fuel (d - 1) prevX prevY
    else []

/-- The iterations of the backward loop that `createScript` executes. -/
def createScriptSteps (t : trace) : List BackStep :=
  scriptLoopSteps t t.v.length (t.length - 1) t.srcLen t.dstLen

/-- The keys of `lastV` that an iteration of the backward loop reads at the
point `(x, y)` of depth `d`: `k - 1` and `k + 1` when the tie-break is
evaluated, and the predecessor diagonal. -/
def scriptKeys (lastV : Frontier) (d x y : Int) : List Int :=
  (if x - y = -d then [] else if x - y ≠ d then [x - y - 1, x - y + 1] else []) ++
    [prevDiag lastV d (x - y)]

/-- Paths inside the edit graph from `(0, 0)`: `GridReach src dst d x y` says
that `(x, y)` is the end of a path that stays within `0..len(src)` and
`0..len(dst)` and uses exactly `d` insert/delete moves and any number of
diagonal moves over equal elements. -/
inductive GridReach (src dst : List String) : Nat → Int → Int → Prop where
  | zero : GridReach src dst 0 0 0
  | diag {d : Nat} {x y : Int} :
      GridReach src dst d x y → matchAt src dst x y → GridReach src dst d (x + 1) (y + 1)
  | right {d : Nat} {x y : Int} :
      GridReach src dst d x y → x + 1 ≤ (src.length : Int) →
      GridReach src dst (d + 1) (x + 1) y
  | down {d : Nat} {x y : Int} :
      GridReach src dst d x y → y + 1 ≤ (dst.length : Int) →
      GridReach src dst (d + 1) x (y + 1)

/-- The length of the longest common prefix of two sequences. -/
def commonPrefixLen : List String → List String → Nat
  | a :: src, b :: dst => if a = b then commonPrefixLen src dst + 1 else 0
  | _, _ => 0

/-- The iteration of the backward loop at the point of diagonal `k` of the
complete frontier of depth `d + 1`. -/
def stepV (src dst : List String) (d : Nat) (k : Int) : BackStep :=
  let pk := prevDiagf (frontierV src dst d) ((d : Int) + 1) k
  let px := frontierV src dst d pk
  let x := startXf (frontierV src dst d) ((d : Int) + 1) k
  { d := (d : Int) + 1, x := frontierV src dst (d + 1) k, y := frontierV src dst (d + 1) k - k,
    lastV := frontierUpTo src dst d (d + 1), prevX := px, prevY := px - pk,
    xAfter := x, yAfter := x - k, op := if x = px then ADD else DELETE }

/-- The iterations of the backward loop from the point of diagonal `k` of the
complete frontier of depth `d`. -/
def stepsV (src dst : List String) : Nat → Int → List BackStep
  | 0, _ => []
  | d + 1, k =>
    stepV src dst d k :: stepsV src dst d (prevDiagf (frontierV src dst d) ((d : Int) + 1) k)

/-! ## Basic facts -/

theorem index_eq_some {α : Type} (s : List α) (i : Int) (a : α) :
    index s i = some a ↔ 0 ≤ i ∧ s[i.toNat]? = some a := by
  unfold index
  by_cases h : i < 0
  · simp [h]
  · simp [h]; intro _; omega

theorem index_lt {α : Type} (s : List α) (i : Int) (a : α) (h : index s i = some a) :
    0 ≤ i ∧ i < (s.length : Int) := by
  rw [index_eq_some] at h
  obtain ⟨h0, h1⟩ := h
  have := (List.getElem?_eq_some.mp h1).1
  omega

theorem index_isSome {α : Type} (s : List α) (i : Int) (h0 : 0 ≤ i)
    (h1 : i < (s.length : Int)) : ∃ a, index s i = some a := by
  have h2 : i.toNat < s.length := by omega
  refine ⟨s[i.toNat], ?_⟩
  rw [index_eq_some]
  exact ⟨h0, List.getElem?_eq_getElem h2⟩

theorem matchAt_bounds {src dst : List String} {x y : Int} (h : matchAt src dst x y) :
    0 ≤ x ∧ x < (src.length : Int) ∧ 0 ≤ y ∧ y < (dst.length : Int) := by
  obtain ⟨a, h1, h2⟩ := h
  have := index_lt _ _ _ h1
  have := index_lt _ _ _ h2
  omega

theorem Frontier.get_set (v : Frontier) (k x k' : Int) :
    (v.set k x).get k' = if k' = k then x else v.get k' := by
  unfold Frontier.get Frontier.set
  by_cases h : k' = k
  · subst h; simp [List.lookup]
  · have : (k' == k) = false := by simpa using h
    simp [List.lookup, this, h]

/-! ## The snake -/

theorem snake_spec (src dst : List String) :
    ∀ (fuel : Nat) (x y : Int), 0 ≤ x → 0 ≤ y → 1 ≤ fuel →
      (src.length : Int) + 1 ≤ x + fuel →
      ∃ n : Nat, snake src dst fuel x y = some (x + n, y + n) ∧
        (∀ i : Nat, i < n → matchAt src dst (x + i) (y + i)) ∧
        ¬ matchAt src dst (x + n) (y + n) := by
  intro fuel
  induction fuel with
  | zero => intro x y _ _ h; omega
  | succ fuel ih =>
    intro x y hx hy _ hf
    unfold snake
    by_cases hc : x < (src.length : Int) ∧ y < (dst.length : Int)
    · obtain ⟨a, ha⟩ := index_isSome src x hx hc.1
      obtain ⟨b, hb⟩ := index_isSome dst y hy hc.2
      simp only [hc, and_self, if_true, ha, hb]
      by_cases hab : a = b
      · subst hab
        obtain ⟨n, h1, h2, h3⟩ := ih (x + 1) (y + 1) (by omega) (by omega) (by omega)
          (by push_cast at hf ⊢; omega)
        refine ⟨n + 1, ?_, ?_, ?_⟩
        · simp only [if_true, h1]; push_cast; congr 2 <;> ring
        · intro i hi
          rcases Nat.eq_zero_or_pos i with h0 | h0
          · subst h0; simpa using ⟨a, ha, hb⟩
          · have := h2 (i - 1) (by omega)
            have e : ((i - 1 : Nat) : Int) = (i : Int) - 1 := by omega
            rw [e] at this
            convert this using 1 <;> ring
        · push_cast
          convert h3 using 2 <;> ring
      · refine ⟨0, by simp [hab], by intro i hi; omega, ?_⟩
        rintro ⟨c, hc1, hc2⟩
        simp at hc1 hc2
        rw [ha] at hc1; rw [hb] at hc2
        exact hab (by simp_all)
    · refine ⟨0, by simp [hc], by intro i hi; omega, ?_⟩
      intro hm
      have := matchAt_bounds hm
      simp at this
      omega

theorem snake_ge (src dst : List String) :
    ∀ (fuel : Nat) (x y x' y' : Int), snake src dst fuel x y = some (x', y') → x ≤ x' := by
  intro fuel
  induction fuel with
  | zero => intro x y x' y' h; simp [snake] at h
  | succ fuel ih =>
    intro x y x' y' h
    unfold snake at h
    split at h
    · split at h
      · split at h
        · have := ih _ _ _ _ h; omega
        · simp at h; omega
      · simp at h
    · simp at h; omega

theorem slide_ge (src dst : List String) (x y : Int) : x ≤ slide src dst x y := by
  unfold slide
  split
  · next x' y' h => exact snake_ge src dst _ _ _ _ _ h
  · exact le_refl x

theorem slide_spec (src dst : List String) (x y : Int) (hx : 0 ≤ x) (hy : 0 ≤ y) :
    ∃ n : Nat, snake src dst (src.length + 1) x y = some (x + n, y + n) ∧
      slide src dst x y = x + n ∧
      (∀ i : Nat, i < n → matchAt src dst (x + i) (y + i)) ∧
      ¬ matchAt src dst (x + n) (y + n) := by
  obtain ⟨n, h1, h2, h3⟩ := snake_spec src dst (src.length + 1) x y hx hy (by omega)
    (by push_cast; omega)
  exact ⟨n, h1, by simp [slide, h1], h2, h3⟩

/-! ## Paths in the edit graph -/

theorem Reach.bounds {src dst : List String} {d : Nat} {x y : Int}
    (h : Reach src dst d x y) : 0 ≤ x ∧ 0 ≤ y ∧ InKeys d (x - y) := by
  unfold InKeys
  induction h with
  | zero => simp
  | diag _ _ ih => omega
  | right _ ih => push_cast; omega
  | down _ ih => push_cast; omega

theorem Reach.snake {src dst : List String} {d : Nat} {x y : Int}
    (h : Reach src dst d x y) :
    ∀ n : Nat, (∀ i : Nat, i < n → matchAt src dst (x + i) (y + i)) →
      Reach src dst d (x + n) (y + n) := by
  intro n
  induction n with
  | zero => intro _; simpa using h
  | succ n ih =>
    intro hm
    have h1 := ih (fun i hi => hm i (by omega))
    have h2 := Reach.diag h1 (hm n (by omega))
    push_cast
    rw [← add_assoc, ← add_assoc]
    exact h2

theorem Reach.slide {src dst : List String} {d : Nat} {x y : Int}
    (h : Reach src dst d x y) :
    Reach src dst d (slide src dst x y) (slide src dst x y - (x - y)) ∧
      ¬ matchAt src dst (slide src dst x y) (slide src dst x y - (x - y)) := by
  obtain ⟨hx, hy, _⟩ := h.bounds
  obtain ⟨n, _, h2, h3, h4⟩ := slide_spec src dst x y hx hy
  rw [h2]
  have e : x + (n : Int) - (x - y) = y + n := by ring
  rw [e]
  exact ⟨h.snake n h3, h4⟩

theorem Reach.rights {src dst : List String} {d : Nat} {x y : Int}
    (h : Reach src dst d x y) (n : Nat) : Reach src dst (d + n) (x + n) y := by
  induction n with
  | zero => simpa using h
  | succ n ih =>
    have := Reach.right ih
    push_cast
    rw [← add_assoc, ← add_assoc]
    exact this

theorem Reach.downs {src dst : List String} {d : Nat} {x y : Int}
    (h : Reach src dst d x y) (n : Nat) : Reach src dst (d + n) x (y + n) := by
  induction n with
  | zero => simpa using h
  | succ n ih =>
    have := Reach.down ih
    push_cast
    rw [← add_assoc, ← add_assoc]
    exact this

theorem Reach.trivial (src dst : List String) :
    Reach src dst (src.length + dst.length) (src.length : Int) (dst.length : Int) := by
  have h := ((Reach.zero : Reach src dst 0 0 0).rights src.length).downs dst.length
  simpa using h

/-- A path that leaves the rectangle of the edit graph can be cut back to the
rectangle: the clipped end point is reached with as many moves less as the
path made outside. -/
theorem Reach.clip {src dst : List String} {d : Nat} {x y : Int}
    (h : Reach src dst d x y) :
    ∃ d' : Nat, Reach src dst d' (min x src.length) (min y dst.length) ∧
      (d' : Int) + (x - min x src.length) + (y - min y dst.length) = d := by
  induction h with
  | zero => exact ⟨0, by simpa using Reach.zero, by simp⟩
  | @diag d x y _ hm ih =>
    obtain ⟨d', h1, h2⟩ := ih
    have hb := matchAt_bounds hm
    have e1 : min x (src.length : Int) = x := by omega
    have e2 : min y (dst.length : Int) = y := by omega
    have e3 : min (x + 1) (src.length : Int) = x + 1 := by omega
    have e4 : min (y + 1) (dst.length : Int) = y + 1 := by omega
    rw [e1, e2] at h1 h2
    rw [e3, e4]
    exact ⟨d', Reach.diag h1 hm, by omega⟩
  | @right d x y _ ih =>
    obtain ⟨d', h1, h2⟩ := ih
    by_cases hx : x < (src.length : Int)
    · have e1 : min x (src.length : Int) = x := by omega
      have e3 : min (x + 1) (src.length : Int) = x + 1 := by omega
      rw [e1] at h1 h2
      rw [e3]
      exact ⟨d' + 1, Reach.right h1, by push_cast; omega⟩
    · have e1 : min x (src.length : Int) = src.length := by omega
      have e3 : min (x + 1) (src.length : Int) = src.length := by omega
      rw [e1] at h1 h2
      rw [e3]
      exact ⟨d', h1, by push_cast; omega⟩
  | @down d x y _ ih =>
    obtain ⟨d', h1, h2⟩ := ih
    by_cases hy : y < (dst.length : Int)
    · have e1 : min y (dst.length : Int) = y := by omega
      have e3 : min (y + 1) (dst.length : Int) = y + 1 := by omega
      rw [e1] at h1 h2
      rw [e3]
      exact ⟨d' + 1, Reach.down h1, by push_cast; omega⟩
    · have e1 : min y (dst.length : Int) = dst.length := by omega
      have e3 : min (y + 1) (dst.length : Int) = dst.length := by omega
      rw [e1] at h1 h2
      rw [e3]
      exact ⟨d', h1, by push_cast; omega⟩

/-! ## The complete frontiers -/

theorem startXf_cases (f : Int → Int) (d : Nat) (k : Int) (hk : InKeys (d + 1) k) :
    (startXf f ((d : Int) + 1) k = f (k + 1) ∧ InKeys d (k + 1) ∧
        prevDiagf f ((d : Int) + 1) k = k + 1 ∧
        (InKeys d (k - 1) → f (k - 1) + 1 ≤ f (k + 1))) ∨
    (startXf f ((d : Int) + 1) k = f (k - 1) + 1 ∧ InKeys d (k - 1) ∧
        prevDiagf f ((d : Int) + 1) k = k - 1 ∧
        (InKeys d (k + 1) → f (k + 1) ≤ f (k - 1))) := by
  unfold InKeys at *
  unfold startXf prevDiagf
  push_cast at hk
  by_cases h1 : k = -((d : Int) + 1)
  · left
    simp only [h1, if_true]
    refine ⟨trivial, by omega, trivial, ?_⟩
    intro h; omega
  · simp only [h1, if_false]
    by_cases h2 : k ≠ (d : Int) + 1 ∧ f (k - 1) < f (k + 1)
    · left
      simp only [h2, and_self, if_true, ne_eq, not_false_eq_true]
      refine ⟨trivial, by omega, trivial, ?_⟩
      intro _; omega
    · right
      simp only [h2, if_false]
      refine ⟨trivial, by omega, trivial, ?_⟩
      intro h
      by_contra hc
      exact h2 ⟨by omega, by omega⟩

theorem frontierV_sound (src dst : List String) :
    ∀ (d : Nat) (k : Int), InKeys d k →
      Reach src dst d (frontierV src dst d k) (frontierV src dst d k - k) ∧
      ¬ matchAt src dst (frontierV src dst d k) (frontierV src dst d k - k) := by
  intro d
  induction d with
  | zero =>
    intro k hk
    have hk0 : k = 0 := by unfold InKeys at hk; simp at hk; omega
    subst hk0
    have := (Reach.zero : Reach src dst 0 0 0).slide
    simpa [frontierV] using this
  | succ d ih =>
    intro k hk
    simp only [frontierV]
    rcases startXf_cases (frontierV src dst d) d k hk with ⟨h1, h2, _, _⟩ | ⟨h1, h2, _, _⟩
    · rw [h1]
      have h3 := Reach.down (ih (k + 1) h2).1
      have e : frontierV src dst d (k + 1) - (k + 1) + 1 = frontierV src dst d (k + 1) - k := by
        ring
      rw [e] at h3
      have h4 := h3.slide
      have e2 : frontierV src dst d (k + 1) - (frontierV src dst d (k + 1) - k) = k := by ring
      rw [e2] at h4
      exact h4
    · rw [h1]
      have h3 := Reach.right (ih (k - 1) h2).1
      have e : frontierV src dst d (k - 1) - (k - 1) = frontierV src dst d (k - 1) + 1 - k := by
        ring
      rw [e] at h3
      have h4 := h3.slide
      have e2 : frontierV src dst d (k - 1) + 1 - (frontierV src dst d (k - 1) + 1 - k) = k := by
        ring
      rw [e2] at h4
      exact h4

theorem frontierV_succ_ge (src dst : List String) (d : Nat) (k : Int) (hk : InKeys (d + 1) k) :
    (InKeys d (k - 1) → frontierV src dst d (k - 1) + 1 ≤ frontierV src dst (d + 1) k) ∧
    (InKeys d (k + 1) → frontierV src dst d (k + 1) ≤ frontierV src dst (d + 1) k) := by
  simp only [frontierV]
  have hs := slide_ge src dst (startXf (frontierV src dst d) ((d : Int) + 1) k)
    (startXf (frontierV src dst d) ((d : Int) + 1) k - k)
  rcases startXf_cases (frontierV src dst d) d k hk with ⟨h1, _, _, h4⟩ | ⟨h1, _, _, h4⟩
  · rw [h1] at hs ⊢
    exact ⟨fun h => le_trans (h4 h) hs, fun _ => hs⟩
  · rw [h1] at hs ⊢
    exact ⟨fun _ => hs, fun h => le_trans (le_trans (h4 h) (by omega)) hs⟩

/-- The frontier is furthest reaching: no path with `d` moves ends beyond it. -/
theorem frontierV_furthest (src dst : List String) {d : Nat} {x y : Int}
    (h : Reach src dst d x y) : x ≤ frontierV src dst d (x - y) := by
  induction h with
  | zero =>
    simp only [frontierV, sub_self, if_true]
    exact slide_ge src dst 0 0
  | @diag d x y hr hm ih =>
    have hk := hr.bounds.2.2
    have hs := (frontierV_sound src dst d (x - y) hk).2
    have e : x + 1 - (y + 1) = x - y := by ring
    rw [e]
    rcases lt_or_eq_of_le ih with h1 | h1
    · omega
    · exfalso
      apply hs
      rw [← h1]
      have e2 : x - (x - y) = y := by ring
      rw [e2]
      exact hm
  | @right d x y hr ih =>
    have hk := hr.bounds.2.2
    have hk' : InKeys (d + 1) (x + 1 - y) := (Reach.right hr).bounds.2.2
    have h1 := (frontierV_succ_ge src dst d (x + 1 - y) hk').1
    have e : x + 1 - y - 1 = x - y := by ring
    rw [e] at h1
    have := h1 hk
    omega
  | @down d x y hr ih =>
    have hk := hr.bounds.2.2
    have hk' : InKeys (d + 1) (x - (y + 1)) := (Reach.down hr).bounds.2.2
    have h1 := (frontierV_succ_ge src dst d (x - (y + 1)) hk').2
    have e : x - (y + 1) + 1 = x - y := by ring
    rw [e] at h1
    have := h1 hk
    omega

/-- While the search has not found the end point, the end point cannot be
reached: the search depth is minimal. -/
theorem not_reach_of_not_found (src dst : List String) :
    ∀ e : Nat, (∀ d : Nat, d ≤ e → ¬ found src dst d) →
      ¬ Reach src dst e (src.length : Int) (dst.length : Int) := by
  intro e
  induction e using Nat.strong_induction_on with
  | _ e ih =>
    intro hnd hr
    have hk := hr.bounds.2.2
    have h1 := frontierV_furthest src dst hr
    have h2 := frontierV_sound src dst e _ hk
    have h3 := hnd e (le_refl e)
    unfold found at h3
    have h4 : (src.length : Int) < frontierV src dst e ((src.length : Int) - dst.length) := by
      rcases lt_or_eq_of_le h1 with h | h
      · exact h
      · exact absurd ⟨hk, h.symm⟩ h3
    obtain ⟨d', h5, h6⟩ := h2.1.clip
    have e1 : min (frontierV src dst e ((src.length : Int) - dst.length)) (src.length : Int)
        = src.length := by omega
    have e2 : min (frontierV src dst e ((src.length : Int) - dst.length)
        - ((src.length : Int) - dst.length)) (dst.length : Int) = dst.length := by omega
    rw [e1, e2] at h5 h6
    have hlt : d' < e := by omega
    exact ih d' hlt (fun d hd => hnd d (by omega)) h5

theorem exists_found (src dst : List String) :
    ∃ d : Nat, d ≤ src.length + dst.length ∧ found src dst d := by
  by_contra h
  push_neg at h
  exact not_reach_of_not_found src dst (src.length + dst.length)
    (fun d hd => h d hd) (Reach.trivial src dst)

/-- The search depth: the least depth at which the end point is found. -/
theorem exists_depth (src dst : List String) :
    ∃ D : Nat, D ≤ src.length + dst.length ∧ found src dst D ∧
      (∀ d : Nat, d < D → ¬ found src dst d) ∧
      (∀ d : Nat, d < D → ¬ Reach src dst d (src.length : Int) (dst.length : Int)) := by
  classical
  obtain ⟨d0, hd0, hf0⟩ := exists_found src dst
  have hex : ∃ d, found src dst d := ⟨d0, hf0⟩
  refine ⟨Nat.find hex, ?_, Nat.find_spec hex, ?_, ?_⟩
  · exact le_trans (Nat.find_min' hex hf0) hd0
  · intro d hd; exact Nat.find_min hex hd
  · intro d hd
    exact not_reach_of_not_found src dst d
      (fun d' hd' => Nat.find_min hex (lt_of_le_of_lt hd' hd))

/-! ## The trace builder computes the complete frontiers -/

theorem firstDiffLoop_eq_snake (src dst : List String) :
    ∀ (fuel : Nat) (i : Int),
      firstDiffLoop src dst fuel i = (snake src dst fuel i i).map Prod.fst := by
  intro fuel
  induction fuel with
  | zero => intro i; simp [firstDiffLoop, snake]
  | succ fuel ih =>
    intro i
    unfold firstDiffLoop snake
    by_cases hc : i < (src.length : Int) ∧ i < (dst.length : Int)
    · have hc' : (src.length : Int) > i ∧ (dst.length : Int) > i := hc
      simp only [hc, hc', and_self, if_true]
      split
      · next a b ha hb =>
        by_cases hab : a = b
        · simp only [hab, if_true]; exact ih (i + 1)
        · simp [hab]
      · simp
    · have hc' : ¬ ((src.length : Int) > i ∧ (dst.length : Int) > i) := hc
      simp [hc, hc']

theorem firstDiffLoop_spec (src dst : List String) :
    firstDiffLoop src dst (src.length + 1) 0 = some (frontierV src dst 0 0) := by
  rw [firstDiffLoop_eq_snake]
  obtain ⟨n, h1, h2, _⟩ := slide_spec src dst 0 0 (le_refl 0) (le_refl 0)
  simp [frontierV, h1, h2]

theorem frontierUpTo_get (src dst : List String) (d : Nat) :
    ∀ (i j : Nat), j < i →
      (frontierUpTo src dst d i).get (-(d : Int) + 2 * (j : Int)) =
        frontierV src dst d (-(d : Int) + 2 * (j : Int)) := by
  intro i
  induction i with
  | zero => intro j hj; omega
  | succ i ih =>
    intro j hj
    simp only [frontierUpTo, Frontier.get_set]
    by_cases h : j = i
    · subst h; simp
    · have : ¬ (-(d : Int) + 2 * (j : Int) = -(d : Int) + 2 * (i : Int)) := by omega
      simp only [this, if_false]
      exact ih j (by omega)

theorem InKeys_iff (d : Nat) (k : Int) :
    InKeys d k ↔ ∃ j : Nat, j ≤ d ∧ k = -(d : Int) + 2 * (j : Int) := by
  unfold InKeys
  constructor
  · intro h
    refine ⟨((k + d) / 2).toNat, ?_, ?_⟩ <;> omega
  · rintro ⟨j, h1, h2⟩
    omega

theorem frontierUpTo_full_get (src dst : List String) (d : Nat) (k : Int)
    (hk : InKeys d k) :
    (frontierUpTo src dst d (d + 1)).get k = frontierV src dst d k := by
  obtain ⟨j, h1, h2⟩ := (InKeys_iff d k).mp hk
  subst h2
  exact frontierUpTo_get src dst d (d + 1) j (by omega)

theorem startXf_congr (f g : Int → Int) (d : Nat) (k : Int) (hk : InKeys (d + 1) k)
    (hfg : ∀ k', InKeys d k' → f k' = g k') :
    startXf f ((d : Int) + 1) k = startXf g ((d : Int) + 1) k ∧
      prevDiagf f ((d : Int) + 1) k = prevDiagf g ((d : Int) + 1) k := by
  unfold startXf prevDiagf
  unfold InKeys at hk hfg
  push_cast at hk
  by_cases h1 : k = -((d : Int) + 1)
  · simp only [h1, if_true, and_true]
    exact hfg _ (by omega)
  · simp only [h1, if_false]
    by_cases h2 : k = (d : Int) + 1
    · simp only [h2, ne_eq, not_true_eq_false, false_and, if_false, and_true]
      rw [hfg _ (by omega)]
    · rw [hfg (k - 1) (by omega), hfg (k + 1) (by omega)]
      exact ⟨rfl, rfl⟩

theorem startX_eq (lastV : Frontier) (d k : Int) :
    startX lastV d k = startXf lastV.get d k := rfl

theorem prevDiag_eq (lastV : Frontier) (d k : Int) :
    prevDiag lastV d k = prevDiagf lastV.get d k := rfl

/-- One iteration of the loop over the diagonals computes the entry of the
complete frontier. -/
theorem snake_frontierV (src dst : List String) (d : Nat) (k : Int) (hk : InKeys (d + 1) k) :
    snake src dst (src.length + 1) (startXf (frontierV src dst d) ((d : Int) + 1) k)
        (startXf (frontierV src dst d) ((d : Int) + 1) k - k) =
      some (frontierV src dst (d + 1) k, frontierV src dst (d + 1) k - k) ∧
    0 ≤ startXf (frontierV src dst d) ((d : Int) + 1) k ∧
    0 ≤ startXf (frontierV src dst d) ((d : Int) + 1) k - k ∧
    ∃ n : Nat, frontierV src dst (d + 1) k =
        startXf (frontierV src dst d) ((d : Int) + 1) k + n ∧
      ∀ i : Nat, i < n → matchAt src dst
        (startXf (frontierV src dst d) ((d : Int) + 1) k + i)
        (startXf (frontierV src dst d) ((d : Int) + 1) k - k + i) := by
  have hb : 0 ≤ startXf (frontierV src dst d) ((d : Int) + 1) k ∧
      0 ≤ startXf (frontierV src dst d) ((d : Int) + 1) k - k := by
    rcases startXf_cases (frontierV src dst d) d k hk with ⟨h1, h2, _, _⟩ | ⟨h1, h2, _, _⟩
    · have := (frontierV_sound src dst d _ h2).1.bounds
      rw [h1]; omega
    · have := (frontierV_sound src dst d _ h2).1.bounds
      rw [h1]; omega
  obtain ⟨n, h1, h2, h3, _⟩ := slide_spec src dst _ _ hb.1 hb.2
  refine ⟨?_, hb.1, hb.2, n, ?_, h3⟩
  · simp only [frontierV]
    rw [h1, h2]
    congr 2
    ring
  · simp only [frontierV]
    exact h2

/-- The loop over the diagonals when no remaining diagonal holds the end
point: it completes the frontier. -/
theorem kLoop_complete (src dst : List String) (d : Nat) (lastV : Frontier)
    (hl : ∀ k', InKeys d k' → lastV.get k' = frontierV src dst d k') :
    ∀ (fuel i : Nat), i ≤ d + 2 → d + 3 ≤ i + fuel →
      (∀ j : Nat, i ≤ j → j ≤ d + 1 →
        ¬ (frontierV src dst (d + 1) (-((d : Int) + 1) + 2 * (j : Int)) = (src.length : Int) ∧
          frontierV src dst (d + 1) (-((d : Int) + 1) + 2 * (j : Int)) -
            (-((d : Int) + 1) + 2 * (j : Int)) = (dst.length : Int))) →
      kLoop src dst ((d : Int) + 1) lastV fuel (-((d : Int) + 1) + 2 * (i : Int))
          (frontierUpTo src dst (d + 1) i) =
        some (frontierUpTo src dst (d + 1) (d + 2), false) := by
  intro fuel
  induction fuel with
  | zero => intro i h1 h2; omega
  | succ fuel ih =>
    intro i h1 h2 hno
    unfold kLoop
    by_cases hi : i = d + 2
    · subst hi
      have : ¬ (-((d : Int) + 1) + 2 * ((d + 2 : Nat) : Int) ≤ (d : Int) + 1) := by
        push_cast; omega
      simp only [this, if_false]
    · have hle : -((d : Int) + 1) + 2 * (i : Int) ≤ (d : Int) + 1 := by omega
      have hk : InKeys (d + 1) (-((d : Int) + 1) + 2 * (i : Int)) := by
        rw [InKeys_iff]; exact ⟨i, by omega, by push_cast; ring⟩
      simp only [hle, if_true]
      rw [startX_eq, (startXf_congr _ _ d _ hk hl).1, (snake_frontierV src dst d _ hk).1]
      simp only
      rw [if_neg (hno i (le_refl i) (by omega))]
      have := ih (i + 1) (by omega) (by omega) (fun j hj1 hj2 => hno j (by omega) hj2)
      have e : -((d : Int) + 1) + 2 * (i : Int) + 2 = -((d : Int) + 1) + 2 * ((i + 1 : Nat) : Int) := by
        push_cast; ring
      rw [e]
      have e2 : Frontier.set (frontierUpTo src dst (d + 1) i) (-((d : Int) + 1) + 2 * (i : Int))
          (frontierV src dst (d + 1) (-((d : Int) + 1) + 2 * (i : Int))) =
          frontierUpTo src dst (d + 1) (i + 1) := by
        simp [frontierUpTo]
      rw [e2]
      exact this

/-- The loop over the diagonals when the end point is met on the diagonal of
index `js`: it returns there. -/
theorem kLoop_found (src dst : List String) (d : Nat) (lastV : Frontier)
    (hl : ∀ k', InKeys d k' → lastV.get k' = frontierV src dst d k') (js : Nat)
    (hjs : js ≤ d + 1)
    (hhit : frontierV src dst (d + 1) (-((d : Int) + 1) + 2 * (js : Int)) = (src.length : Int) ∧
          frontierV src dst (d + 1) (-((d : Int) + 1) + 2 * (js : Int)) -
            (-((d : Int) + 1) + 2 * (js : Int)) = (dst.length : Int)) :
    ∀ (fuel i : Nat), i ≤ js → d + 3 ≤ i + fuel →
      (∀ j : Nat, i ≤ j → j < js →
        ¬ (frontierV src dst (d + 1) (-((d : Int) + 1) + 2 * (j : Int)) = (src.length : Int) ∧
          frontierV src dst (d + 1) (-((d : Int) + 1) + 2 * (j : Int)) -
            (-((d : Int) + 1) + 2 * (j : Int)) = (dst.length : Int))) →
      kLoop src dst ((d : Int) + 1) lastV fuel (-((d : Int) + 1) + 2 * (i : Int))
          (frontierUpTo src dst (d + 1) i) =
        some (frontierUpTo src dst (d + 1) (js + 1), true) := by
  intro fuel
  induction fuel with
  | zero => intro i h1 h2; omega
  | succ fuel ih =>
    intro i h1 h2 hno
    unfold kLoop
    have hle : -((d : Int) + 1) + 2 * (i : Int) ≤ (d : Int) + 1 := by omega
    have hk : InKeys (d + 1) (-((d : Int) + 1) + 2 * (i : Int)) := by
      rw [InKeys_iff]; exact ⟨i, by omega, by push_cast; ring⟩
    simp only [hle, if_true]
    rw [startX_eq, (startXf_congr _ _ d _ hk hl).1, (snake_frontierV src dst d _ hk).1]
    simp only
    have e2 : Frontier.set (frontierUpTo src dst (d + 1) i) (-((d : Int) + 1) + 2 * (i : Int))
        (frontierV src dst (d + 1) (-((d : Int) + 1) + 2 * (i : Int))) =
        frontierUpTo src dst (d + 1) (i + 1) := by
      simp [frontierUpTo]
    rw [e2]
    by_cases hi : i = js
    · subst hi
      rw [if_pos hhit]
    · rw [if_neg (hno i (le_refl i) (by omega))]
      have := ih (i + 1) (by omega) (by omega) (fun j hj1 hj2 => hno j (by omega) hj2)
      have e : -((d : Int) + 1) + 2 * (i : Int) + 2 = -((d : Int) + 1) + 2 * ((i + 1 : Nat) : Int) := by
        push_cast; ring
      rw [e]
      exact this

/-- The index of the diagonal of the end point among the diagonals of depth `D`. -/
theorem found_index (src dst : List String) (D : Nat) (h : found src dst D) :
    ∃ js : Nat, js ≤ D ∧ (src.length : Int) - dst.length = -(D : Int) + 2 * (js : Int) ∧
      (((src.length : Int) - (dst.length : Int) + (D : Int)) / 2).toNat = js := by
  obtain ⟨j, h1, h2⟩ := (InKeys_iff D _).mp h.1
  exact ⟨j, h1, h2, by omega⟩

theorem index_natCast {α : Type} (s : List α) (n : Nat) : index s (n : Int) = s[n]? := by
  unfold index
  have : ¬ ((n : Int) < 0) := by omega
  simp [this]

theorem hit_found (src dst : List String) (d j : Nat) (hj : j ≤ d)
    (h : frontierV src dst d (-(d : Int) + 2 * (j : Int)) = (src.length : Int) ∧
      frontierV src dst d (-(d : Int) + 2 * (j : Int)) - (-(d : Int) + 2 * (j : Int)) =
        (dst.length : Int)) :
    found src dst d ∧ (src.length : Int) - dst.length = -(d : Int) + 2 * (j : Int) := by
  have e : (src.length : Int) - dst.length = -(d : Int) + 2 * (j : Int) := by omega
  refine ⟨⟨?_, ?_⟩, e⟩
  · rw [e, InKeys_iff]; exact ⟨j, hj, rfl⟩
  · rw [e]; exact h.1

theorem range_map_getElem? (f : Nat → Frontier) (n d : Nat) (h : d < n) :
    ((List.range n).map f)[d]? = some (f d) := by
  simp [List.getElem?_map, List.getElem?_range h]

/-- The loop over the depths, started at a depth `d + 1` not beyond the
search depth `D` on the complete frontiers of the depths up to `d`, returns
the trace `traceV src dst D` from inside the loop. -/
theorem dLoop_spec (src dst : List String) (maxLen : Int) (D : Nat)
    (hD : found src dst D) (hmin : ∀ d : Nat, d < D → ¬ found src dst d)
    (hDle : (D : Int) ≤ maxLen) :
    ∀ (fuel d : Nat) (t : trace), d + 1 ≤ D → D + 1 ≤ d + 1 + fuel →
      t.v = (List.range (d + 1)).map (fun d => frontierUpTo src dst d (d + 1)) →
      t.srcLen = (src.length : Int) → t.dstLen = (dst.length : Int) →
      dLoop src dst maxLen fuel ((d : Int) + 1) t = some (traceV src dst D, true) := by
  intro fuel
  induction fuel with
  | zero => intro d t h1 h2; omega
  | succ fuel ih =>
    intro d t h1 h2 hv hs hd
    unfold dLoop
    have c1 : (d : Int) + 1 ≤ maxLen := by omega
    have c2 : ¬ ((d : Int) + 1 = 0) := by omega
    simp only [c1, c2, if_true, if_false]
    have e1 : (d : Int) + 1 - 1 = (d : Int) := by ring
    rw [e1, index_natCast, hv, range_map_getElem? _ _ _ (by omega)]
    simp only
    have hl : ∀ k', InKeys d k' →
        (frontierUpTo src dst d (d + 1)).get k' = frontierV src dst d k' :=
      fun k' hk' => frontierUpTo_full_get src dst d k' hk'
    have e2 : ((d : Int) + 1).toNat + 2 = d + 3 := by omega
    have e3 : -((d : Int) + 1) = -((d : Int) + 1) + 2 * ((0 : Nat) : Int) := by simp
    have e4 : ([] : Frontier) = frontierUpTo src dst (d + 1) 0 := rfl
    rw [e2, e3, e4]
    by_cases hlt : d + 1 < D
    · have hnf := hmin (d + 1) hlt
      rw [kLoop_complete src dst d _ hl (d + 3) 0 (by omega) (by omega)
        (fun j _ hj2 hh => hnf (hit_found src dst (d + 1) j hj2 (by push_cast; exact hh)).1)]
      simp only
      have e5 : ((d : Int) + 1 + 1) = (((d + 1 : Nat) : Int) + 1) := by push_cast; ring
      rw [e5]
      apply ih (d + 1) (t.append _) (by omega) (by omega)
      · simp only [trace.append, hv]
        rw [@List.range_succ (d + 1), List.map_append]
        simp
      · simpa [trace.append] using hs
      · simpa [trace.append] using hd
    · have hDe : D = d + 1 := by omega
      subst hDe
      obtain ⟨js, hjs1, hjs2, hjs3⟩ := found_index src dst (d + 1) hD
      have hhit : frontierV src dst (d + 1) (-((d : Int) + 1) + 2 * (js : Int)) = (src.length : Int) ∧
          frontierV src dst (d + 1) (-((d : Int) + 1) + 2 * (js : Int)) -
            (-((d : Int) + 1) + 2 * (js : Int)) = (dst.length : Int) := by
        have h := hD.2
        push_cast at hjs2
        rw [hjs2] at h
        constructor
        · exact h
        · rw [h]; omega
      rw [kLoop_found src dst d _ hl js hjs1 hhit (d + 3) 0 (by omega) (by omega)
        (fun j _ hj2 hh => by
          have := (hit_found src dst (d + 1) j (by omega) (by push_cast; exact hh)).2
          push_cast at this hjs2
          omega)]
      simp only [traceV, trace.append, hv, hjs3, Nat.succ_eq_add_one]
      congr 1
      cases t
      simp_all

/-- The trace builder returns the trace `traceV src dst D` of the least depth
`D` at which the end point is found, and returns it from inside the loop. -/
theorem createTraceAux_spec (src dst : List String) (D : Nat)
    (hDle : D ≤ src.length + dst.length)
    (hD : found src dst D) (hmin : ∀ d : Nat, d < D → ¬ found src dst d) :
    createTraceAux src dst = some (traceV src dst D, true) := by
  unfold createTraceAux
  unfold dLoop
  have c1 : (0 : Int) ≤ (src.length : Int) + (dst.length : Int) := by omega
  simp only [c1, if_true, firstDiffLoop_spec]
  rcases Nat.eq_zero_or_pos D with h0 | h0
  · subst h0
    have hk := hD.1
    have hv := hD.2
    unfold InKeys at hk
    have e : (src.length : Int) - dst.length = 0 := by simp at hk; omega
    rw [e] at hv
    have c2 : frontierV src dst 0 0 = (src.length : Int) ∧
        frontierV src dst 0 0 = (dst.length : Int) := ⟨hv, by omega⟩
    rw [if_pos c2]
    simp [traceV, trace.append, e, frontierUpTo]
  · have c2 : ¬ (frontierV src dst 0 0 = (src.length : Int) ∧
        frontierV src dst 0 0 = (dst.length : Int)) := by
      intro hc
      apply hmin 0 h0
      have e : (src.length : Int) - dst.length = 0 := by omega
      refine ⟨?_, ?_⟩
      · rw [e]; unfold InKeys; simp
      · rw [e]; exact hc.1
    rw [if_neg c2]
    have e0 : (0 : Int) + 1 = ((0 : Nat) : Int) + 1 := by simp
    rw [e0]
    apply dLoop_spec src dst _ D hD hmin (by exact_mod_cast hDle) _ 0 _ (by omega) (by omega)
    · simp [trace.append, frontierUpTo, List.range_succ]
    · simp [trace.append]
    · simp [trace.append]

/-! ## The script reconstructor walks the complete frontiers backward -/

theorem noopLoop_spec (prevX prevY : Int) :
    ∀ (n fuel : Nat) (x y : Int) (script : List opType), n < fuel →
      prevX ≤ x - n → prevY ≤ y - n → (x - n = prevX ∨ y - n = prevY) →
      noopLoop fuel x y prevX prevY script =
        some (x - n, y - n, script ++ List.replicate n NOOP) := by
  intro n
  induction n with
  | zero =>
    intro fuel x y script hf h1 h2 h3
    obtain ⟨f, rfl⟩ : ∃ f, fuel = f + 1 := ⟨fuel - 1, by omega⟩
    unfold noopLoop
    have : ¬ (x > prevX ∧ y > prevY) := by
      simp only [Nat.cast_zero, sub_zero] at h3
      omega
    simp [this]
  | succ n ih =>
    intro fuel x y script hf h1 h2 h3
    obtain ⟨f, rfl⟩ : ∃ f, fuel = f + 1 := ⟨fuel - 1, by omega⟩
    unfold noopLoop
    push_cast at h1 h2 h3
    have : x > prevX ∧ y > prevY := by omega
    simp only [this, and_self, if_true]
    rw [ih f (x - 1) (y - 1) _ (by omega) (by omega) (by omega) (by omega)]
    simp only [List.replicate_succ, List.append_assoc, List.singleton_append]
    push_cast
    congr 2
    · ring
    · congr 1
      ring

theorem traceV_index (src dst : List String) (D d : Nat) (hd : d < D) :
    index (traceV src dst D).v (d : Int) = some (frontierUpTo src dst d (d + 1)) := by
  rw [index_natCast]
  simp only [traceV]
  rw [List.getElem?_append_left (by simpa using hd)]
  exact range_map_getElem? _ _ _ hd

theorem scriptLoop_spec (src dst : List String) (t : trace) (D : Nat)
    (ht : ∀ d : Nat, d < D → index t.v (d : Int) = some (frontierUpTo src dst d (d + 1))) :
    ∀ (d fuel : Nat) (k : Int) (script : List opType), d ≤ D → d < fuel → InKeys d k →
      scriptLoop t fuel (d : Int) (frontierV src dst d k) (frontierV src dst d k - k) script =
        some (script ++ (pathOps src dst d k).reverse) := by
  intro d
  induction d with
  | zero =>
    intro fuel k script _ hf _
    obtain ⟨f, rfl⟩ : ∃ f, fuel = f + 1 := ⟨fuel - 1, by omega⟩
    simp [scriptLoop, pathOps]
  | succ d ih =>
    intro fuel k script hd hf hk
    obtain ⟨f, rfl⟩ : ∃ f, fuel = f + 1 := ⟨fuel - 1, by omega⟩
    unfold scriptLoop
    have c1 : ((d + 1 : Nat) : Int) > 0 := by push_cast; omega
    simp only [c1, if_true]
    have e1 : ((d + 1 : Nat) : Int) - 1 = (d : Int) := by push_cast; ring
    have e2 : frontierV src dst (d + 1) k - (frontierV src dst (d + 1) k - k) = k := by ring
    have e3 : ((d + 1 : Nat) : Int) = (d : Int) + 1 := by push_cast; ring
    rw [e1, ht d (by omega), e2]
    simp only
    have hl : ∀ k', InKeys d k' →
        (frontierUpTo src dst d (d + 1)).get k' = frontierV src dst d k' :=
      fun k' hk' => frontierUpTo_full_get src dst d k' hk'
    rw [prevDiag_eq, e3, (startXf_congr _ _ d _ hk hl).2]
    obtain ⟨_, _, _, n, hn, _⟩ := snake_frontierV src dst d k hk
    have hpo : pathOps src dst (d + 1) k =
        pathOps src dst d (prevDiagf (frontierV src dst d) ((d : Int) + 1) k) ++
          [if startXf (frontierV src dst d) ((d : Int) + 1) k =
              frontierV src dst d (prevDiagf (frontierV src dst d) ((d : Int) + 1) k)
            then ADD else DELETE] ++
          List.replicate (frontierV src dst (d + 1) k -
            startXf (frontierV src dst d) ((d : Int) + 1) k).toNat NOOP := rfl
    rw [hpo]
    have hn' : (frontierV src dst (d + 1) k -
        startXf (frontierV src dst d) ((d : Int) + 1) k).toNat = n := by omega
    rw [hn']
    rcases startXf_cases (frontierV src dst d) d k hk with ⟨h1, h2, h3, _⟩ | ⟨h1, h2, h3, _⟩
    · rw [h3, hl _ h2, h1]
      rw [h1] at hn
      rw [noopLoop_spec _ _ n _ _ _ _ (by omega) (by omega) (by omega) (Or.inl (by omega))]
      simp only
      have e4 : frontierV src dst (d + 1) k - (n : Int) = frontierV src dst d (k + 1) := by omega
      rw [e4]
      simp only [if_true]
      rw [ih f (k + 1) _ (by omega) (by omega) h2]
      simp [List.reverse_append, List.append_assoc]
    · rw [h3, hl _ h2, h1]
      rw [h1] at hn
      rw [noopLoop_spec _ _ n _ _ _ _ (by omega) (by omega) (by omega) (Or.inr (by omega))]
      simp only
      have e4 : frontierV src dst (d + 1) k - (n : Int) = frontierV src dst d (k - 1) + 1 := by
        omega
      rw [e4]
      have c2 : ¬ (frontierV src dst d (k - 1) + 1 = frontierV src dst d (k - 1)) := by omega
      simp only [c2, if_false]
      rw [ih f (k - 1) _ (by omega) (by omega) h2]
      simp [List.reverse_append, List.append_assoc]

theorem traceV_index_zero (src dst : List String) (D : Nat) (hD : found src dst D) :
    ∃ v0, index (traceV src dst D).v 0 = some v0 ∧ v0.get 0 = frontierV src dst 0 0 := by
  rcases Nat.eq_zero_or_pos D with h0 | h0
  · subst h0
    have hk := hD.1
    unfold InKeys at hk
    have e : (src.length : Int) - dst.length = 0 := by simp at hk; omega
    refine ⟨frontierUpTo src dst 0 1, ?_, ?_⟩
    · simp [traceV, index, e]
    · simp [frontierUpTo, Frontier.get_set]
  · refine ⟨frontierUpTo src dst 0 1, ?_, ?_⟩
    · exact_mod_cast traceV_index src dst D 0 h0
    · simp [frontierUpTo, Frontier.get_set]

theorem traceV_length (src dst : List String) (D : Nat) :
    (traceV src dst D).v.length = D + 1 := by
  simp [traceV]

theorem frontierV_zero_nonneg (src dst : List String) : 0 ≤ frontierV src dst 0 0 := by
  have := slide_ge src dst 0 0
  simpa [frontierV] using this

theorem createScript_spec (src dst : List String) (D : Nat) (hD : found src dst D) :
    createScript (traceV src dst D) = some (scriptV src dst D) := by
  unfold createScript
  have e1 : (traceV src dst D).length - 1 = (D : Int) := by
    simp [trace.length, traceV_length]
  have e2 : (traceV src dst D).srcLen =
      frontierV src dst D ((src.length : Int) - dst.length) := by
    rw [hD.2]; rfl
  have e3 : (traceV src dst D).dstLen =
      frontierV src dst D ((src.length : Int) - dst.length) -
        ((src.length : Int) - dst.length) := by
    rw [hD.2]; simp [traceV]
  rw [e1, e2, e3, traceV_length,
    scriptLoop_spec src dst (traceV src dst D) D (fun d hd => traceV_index src dst D d hd)
      D (D + 1) _ [] (le_refl D) (by omega) hD.1]
  obtain ⟨v0, h1, h2⟩ := traceV_index_zero src dst D hD
  simp only [h1, h2]
  have h0 := frontierV_zero_nonneg src dst
  by_cases hz : frontierV src dst 0 0 = 0
  · simp [hz, scriptV, reverse]
  · simp [hz, scriptV, reverse, List.reverse_append]

/-- The search depth with everything the verification uses about it. -/
theorem shortestEditScript_spec (src dst : List String) :
    ∃ D : Nat, D ≤ src.length + dst.length ∧ found src dst D ∧
      (∀ d : Nat, d < D → ¬ found src dst d) ∧
      (∀ d : Nat, d < D → ¬ Reach src dst d (src.length : Int) (dst.length : Int)) ∧
      createTraceAux src dst = some (traceV src dst D, true) ∧
      createTrace src dst = some (traceV src dst D) ∧
      shortestEditScript src dst = some (scriptV src dst D) := by
  obtain ⟨D, h1, h2, h3, h4⟩ := exists_depth src dst
  have h5 := createTraceAux_spec src dst D h1 h2 h3
  have h6 : createTrace src dst = some (traceV src dst D) := by
    simp [createTrace, h5]
  refine ⟨D, h1, h2, h3, h4, h5, h6, ?_⟩
  simp only [shortestEditScript, h6]
  exact createScript_spec src dst D h2

/-! ## Replay of scripts -/

theorem replay_append (src dst : List String) :
    ∀ (s1 s2 : List opType) (i j : Nat),
      replay src dst (s1 ++ s2) i j =
        (replay src dst s1 i j).bind (fun p => replay src dst s2 p.1 p.2) := by
  intro s1
  induction s1 with
  | nil => intro s2 i j; simp [replay]
  | cons op s1 ih =>
    intro s2 i j
    cases op
    · simp only [List.cons_append, replay]
      split
      · exact ih s2 _ _
      · simp
    · simp only [List.cons_append, replay]
      split
      · exact ih s2 _ _
      · simp
    · simp only [List.cons_append, replay]
      split
      · exact ih s2 _ _
      · simp

theorem matchAt_natCast (src dst : List String) (a b : Nat) :
    matchAt src dst (a : Int) (b : Int) ↔
      a < src.length ∧ b < dst.length ∧ src[a]? = dst[b]? := by
  unfold matchAt
  simp only [index_natCast]
  constructor
  · rintro ⟨c, h1, h2⟩
    have h3 := (List.getElem?_eq_some.mp h1).1
    have h4 := (List.getElem?_eq_some.mp h2).1
    exact ⟨h3, h4, by rw [h1, h2]⟩
  · rintro ⟨h1, h2, h3⟩
    refine ⟨src[a], List.getElem?_eq_getElem h1, ?_⟩
    rw [← h3]
    exact List.getElem?_eq_getElem h1

theorem replay_noops (src dst : List String) :
    ∀ (n i j : Nat), (∀ t : Nat, t < n → matchAt src dst ((i : Int) + t) ((j : Int) + t)) →
      replay src dst (List.replicate n NOOP) i j = some (i + n, j + n) := by
  intro n
  induction n with
  | zero => intro i j _; simp [replay]
  | succ n ih =>
    intro i j h
    have h0 := h 0 (by omega)
    simp only [Nat.cast_zero, add_zero] at h0
    rw [matchAt_natCast] at h0
    simp only [List.replicate_succ, replay, h0, and_self, if_true]
    rw [ih (i + 1) (j + 1)]
    · congr 2 <;> omega
    · intro t ht
      have := h (t + 1) (by omega)
      push_cast at this ⊢
      convert this using 1 <;> ring

theorem edits_append (s1 s2 : List opType) : edits (s1 ++ s2) = edits s1 + edits s2 := by
  simp only [edits, countOp, List.count_append]
  omega

theorem edits_replicate_noop (n : Nat) : edits (List.replicate n NOOP) = 0 := by
  simp [edits, countOp, List.count_replicate]

theorem edits_cons (op : opType) (s : List opType) :
    edits (op :: s) = (if op = NOOP then 0 else 1) + edits s := by
  cases op <;> simp [edits, countOp, List.count_cons] <;> omega

/-- A script that replays from `(i, j)` to `(i', j')` is a path of the edit
graph with one horizontal or vertical move per `DELETE` or `ADD`. -/
theorem replay_reach (src dst : List String) :
    ∀ (s : List opType) (d i j i' j' : Nat), replay src dst s i j = some (i', j') →
      Reach src dst d (i : Int) (j : Int) → Reach src dst (d + edits s) (i' : Int) (j' : Int) := by
  intro s
  induction s with
  | nil =>
    intro d i j i' j' h hr
    simp [replay] at h
    obtain ⟨rfl, rfl⟩ := h
    simpa [edits, countOp] using hr
  | cons op s ih =>
    intro d i j i' j' h hr
    cases op
    · simp only [replay] at h
      split at h
      · have := ih (d + 1) i (j + 1) i' j' h (by exact_mod_cast Reach.down hr)
        rw [edits_cons]
        simp only [reduceCtorEq, if_false]
        rw [← add_assoc]
        exact this
      · simp at h
    · simp only [replay] at h
      split at h
      · have := ih (d + 1) (i + 1) j i' j' h (by exact_mod_cast Reach.right hr)
        rw [edits_cons]
        simp only [reduceCtorEq, if_false]
        rw [← add_assoc]
        exact this
      · simp at h
    · simp only [replay] at h
      split at h
      · next hc =>
        have hm := (matchAt_natCast src dst i j).mpr hc
        have := ih d (i + 1) (j + 1) i' j' h (by exact_mod_cast Reach.diag hr hm)
        rw [edits_cons]
        simpa using this
      · simp at h

/-- Every operation of a replayed script advances the cursors as counted. -/
theorem replay_count (src dst : List String) :
    ∀ (s : List opType) (i j i' j' : Nat), replay src dst s i j = some (i', j') →
      i + (countOp DELETE s + countOp NOOP s) = i' ∧
      j + (countOp ADD s + countOp NOOP s) = j' := by
  intro s
  induction s with
  | nil =>
    intro i j i' j' h
    simp [replay] at h
    simp [countOp, h]
  | cons op s ih =>
    intro i j i' j' h
    cases op
    · simp only [replay] at h
      split at h
      · have := ih _ _ _ _ h
        simp only [countOp, List.count_cons] at this ⊢
        simp
        omega
      · simp at h
    · simp only [replay] at h
      split at h
      · have := ih _ _ _ _ h
        simp only [countOp, List.count_cons] at this ⊢
        simp
        omega
      · simp at h
    · simp only [replay] at h
      split at h
      · have := ih _ _ _ _ h
        simp only [countOp, List.count_cons] at this ⊢
        simp
        omega
      · simp at h

/-- The path to a point of a complete frontier that lies inside the edit
graph replays to that point, and has as many `ADD` and `DELETE` operations as
the depth of the frontier. -/
theorem pathOps_replay (src dst : List String) :
    ∀ (d : Nat) (k : Int), InKeys d k →
      frontierV src dst d k ≤ (src.length : Int) →
      frontierV src dst d k - k ≤ (dst.length : Int) →
      replay src dst (List.replicate (frontierV src dst 0 0).toNat NOOP ++ pathOps src dst d k)
          0 0 = some ((frontierV src dst d k).toNat, (frontierV src dst d k - k).toNat) ∧
      edits (List.replicate (frontierV src dst 0 0).toNat NOOP ++ pathOps src dst d k) = d := by
  intro d
  induction d with
  | zero =>
    intro k hk _ _
    have hk0 : k = 0 := by unfold InKeys at hk; simp at hk; omega
    subst hk0
    obtain ⟨n, _, h2, h3, _⟩ := slide_spec src dst 0 0 (le_refl 0) (le_refl 0)
    have e : frontierV src dst 0 0 = (n : Int) := by simp [frontierV, h2]
    simp only [pathOps, List.append_nil, e, Int.toNat_ofNat, sub_zero]
    refine ⟨?_, edits_replicate_noop n⟩
    rw [replay_noops src dst n 0 0 (fun t ht => by simpa using h3 t ht)]
    simp
  | succ d ih =>
    intro k hk hx hy
    obtain ⟨_, hs0, hs1, n, hn, hm⟩ := snake_frontierV src dst d k hk
    have hpo : pathOps src dst (d + 1) k =
        pathOps src dst d (prevDiagf (frontierV src dst d) ((d : Int) + 1) k) ++
          [if startXf (frontierV src dst d) ((d : Int) + 1) k =
              frontierV src dst d (prevDiagf (frontierV src dst d) ((d : Int) + 1) k)
            then ADD else DELETE] ++
          List.replicate (frontierV src dst (d + 1) k -
            startXf (frontierV src dst d) ((d : Int) + 1) k).toNat NOOP := rfl
    have hn' : (frontierV src dst (d + 1) k -
        startXf (frontierV src dst d) ((d : Int) + 1) k).toNat = n := by omega
    rw [hpo, hn', List.append_assoc, ← List.append_assoc]
    rcases startXf_cases (frontierV src dst d) d k hk with ⟨h1, h2, h3, _⟩ | ⟨h1, h2, h3, _⟩
    · rw [h1] at hn hm hs0 hs1
      have hb := (frontierV_sound src dst d _ h2).1.bounds
      obtain ⟨ih1, ih2⟩ := ih (k + 1) h2 (by omega) (by omega)
      rw [h3, h1]
      simp only [if_true]
      constructor
      · rw [replay_append, ih1]
        simp only [Option.some_bind]
        rw [List.singleton_append]
        simp only [replay]
        have c : (frontierV src dst d (k + 1) - (k + 1)).toNat < dst.length := by omega
        simp only [c, if_true]
        rw [replay_noops src dst n _ _ (fun t ht => by
          have := hm t ht
          convert this using 1
          · omega
          · push_cast; omega)]
        congr 2 <;> omega
      · rw [edits_append, ih2, List.singleton_append, edits_cons, edits_replicate_noop]
        simp
    · rw [h1] at hn hm hs0 hs1
      have hb := (frontierV_sound src dst d _ h2).1.bounds
      obtain ⟨ih1, ih2⟩ := ih (k - 1) h2 (by omega) (by omega)
      rw [h3, h1]
      have c2 : ¬ (frontierV src dst d (k - 1) + 1 = frontierV src dst d (k - 1)) := by omega
      simp only [c2, if_false]
      constructor
      · rw [replay_append, ih1]
        simp only [Option.some_bind]
        rw [List.singleton_append]
        simp only [replay]
        have c : (frontierV src dst d (k - 1)).toNat < src.length := by omega
        simp only [c, if_true]
        rw [replay_noops src dst n _ _ (fun t ht => by
          have := hm t ht
          convert this using 1
          · push_cast; omega
          · omega)]
        congr 2 <;> omega
      · rw [edits_append, ih2, List.singleton_append, edits_cons, edits_replicate_noop]
        simp

theorem scriptV_replay (src dst : List String) (D : Nat) (hD : found src dst D) :
    replay src dst (scriptV src dst D) 0 0 = some (src.length, dst.length) ∧
      edits (scriptV src dst D) = D := by
  have h := pathOps_replay src dst D _ hD.1 (by rw [hD.2]) (by rw [hD.2]; omega)
  rw [hD.2] at h
  unfold scriptV
  refine ⟨?_, h.2⟩
  rw [h.1]
  congr 2
  omega

/-! ## The dynamic-programming reference -/

theorem editDistance_cons_cons (a b : String) (X Y : List String) :
    editDistance (a :: X) (b :: Y) =
      if a = b then editDistance X Y
      else 1 + min (editDistance X (b :: Y)) (editDistance (a :: X) Y) := by
  simp [editDistance, editRow]

theorem editDistance_nil_left (Y : List String) : editDistance [] Y = Y.length := rfl

theorem editDistance_nil_right (X : List String) : editDistance X [] = X.length := by
  induction X with
  | nil => rfl
  | cons a X ih => simp [editDistance, editRow, ih]

theorem lcsLength_cons_cons (a b : String) (X Y : List String) :
    lcsLength (a :: X) (b :: Y) =
      if a = b then 1 + lcsLength X Y
      else max (lcsLength X (b :: Y)) (lcsLength (a :: X) Y) := by
  simp [lcsLength, lcsRow]

theorem lcsLength_nil_right (X : List String) : lcsLength X [] = 0 := by
  cases X <;> simp [lcsLength, lcsRow]

theorem editDistance_add_lcsLength :
    ∀ (n : Nat) (X Y : List String), X.length + Y.length ≤ n →
      editDistance X Y + 2 * lcsLength X Y = X.length + Y.length := by
  intro n
  induction n with
  | zero =>
    intro X Y h
    have hX : X = [] := List.length_eq_zero.mp (by omega)
    have hY : Y = [] := List.length_eq_zero.mp (by omega)
    subst hX hY
    rfl
  | succ n ih =>
    intro X Y h
    cases X with
    | nil => simp [editDistance_nil_left, lcsLength]
    | cons a X =>
      cases Y with
      | nil => simp [editDistance_nil_right, lcsLength_nil_right]
      | cons b Y =>
        rw [editDistance_cons_cons, lcsLength_cons_cons]
        simp only [List.length_cons] at h ⊢
        have h1 := ih X Y (by omega)
        have h2 := ih X (b :: Y) (by simp only [List.length_cons]; omega)
        have h3 := ih (a :: X) Y (by simp only [List.length_cons]; omega)
        simp only [List.length_cons] at h2 h3
        by_cases hab : a = b
        · simp only [hab, if_true]; omega
        · simp only [hab, if_false]; omega

/-- Prepending an element to either sequence changes the distance by at most one. -/
theorem editDistance_lipschitz :
    ∀ (n : Nat) (X Y : List String), X.length + Y.length ≤ n →
      (∀ a, editDistance (a :: X) Y ≤ editDistance X Y + 1 ∧
        editDistance X Y ≤ editDistance (a :: X) Y + 1) ∧
      (∀ b, editDistance X (b :: Y) ≤ editDistance X Y + 1 ∧
        editDistance X Y ≤ editDistance X (b :: Y) + 1) := by
  intro n
  induction n with
  | zero =>
    intro X Y h
    have hX : X = [] := List.length_eq_zero.mp (by omega)
    have hY : Y = [] := List.length_eq_zero.mp (by omega)
    subst hX hY
    simp [editDistance_nil_left, editDistance_nil_right]
  | succ n ih =>
    intro X Y h
    constructor
    · intro a
      cases Y with
      | nil => simp only [editDistance_nil_right, List.length_cons]; omega
      | cons b Y =>
        simp only [List.length_cons] at h
        have hq := (ih X Y (by omega)).2 b
        have hp := (ih X Y (by omega)).1 a
        rw [editDistance_cons_cons]
        by_cases hab : a = b
        · rw [if_pos hab]; omega
        · rw [if_neg hab]; omega
    · intro b
      cases X with
      | nil => simp only [editDistance_nil_left, List.length_cons]; omega
      | cons a X =>
        simp only [List.length_cons] at h
        have hq := (ih X Y (by omega)).2 b
        have hp := (ih X Y (by omega)).1 a
        rw [editDistance_cons_cons]
        by_cases hab : a = b
        · rw [if_pos hab]; omega
        · rw [if_neg hab]; omega

/-- No script that replays to the end has fewer `ADD` and `DELETE`
operations than the dynamic-programming distance of what is left. -/
theorem editDistance_le_edits (src dst : List String) :
    ∀ (s : List opType) (i j : Nat),
      replay src dst s i j = some (src.length, dst.length) →
      editDistance (src.drop i) (dst.drop j) ≤ edits s := by
  intro s
  induction s with
  | nil =>
    intro i j h
    simp [replay] at h
    simp [h.1, h.2, editDistance_nil_left]
  | cons op s ih =>
    intro i j h
    cases op
    · simp only [replay] at h
      split at h
      · next hj =>
        have := ih _ _ h
        rw [edits_cons, List.drop_eq_getElem_cons hj]
        have hl := ((editDistance_lipschitz _ (src.drop i) (dst.drop (j + 1)) (le_refl _)).2
          dst[j]).1
        simp only [reduceCtorEq, if_false]
        omega
      · simp at h
    · simp only [replay] at h
      split at h
      · next hi =>
        have := ih _ _ h
        rw [edits_cons, List.drop_eq_getElem_cons hi]
        have hl := ((editDistance_lipschitz _ (src.drop (i + 1)) (dst.drop j) (le_refl _)).1
          src[i]).1
        simp only [reduceCtorEq, if_false]
        omega
      · simp at h
    · simp only [replay] at h
      split at h
      · next hc =>
        have := ih _ _ h
        obtain ⟨hi, hj, he⟩ := hc
        rw [edits_cons, List.drop_eq_getElem_cons hi, List.drop_eq_getElem_cons hj,
          editDistance_cons_cons]
        rw [List.getElem?_eq_getElem hi, List.getElem?_eq_getElem hj] at he
        have he' : src[i] = dst[j] := by simpa using he
        simp only [he', if_true]
        omega
      · simp at h

/-- The dynamic-programming distance is the length of a path of the edit graph. -/
theorem reach_editDistance (src dst : List String) :
    ∀ (n i j d : Nat), i ≤ src.length → j ≤ dst.length →
      (src.length - i) + (dst.length - j) ≤ n →
      Reach src dst d (i : Int) (j : Int) →
      Reach src dst (d + editDistance (src.drop i) (dst.drop j))
        (src.length : Int) (dst.length : Int) := by
  intro n
  induction n with
  | zero =>
    intro i j d hi hj hn hr
    have ei : i = src.length := by omega
    have ej : j = dst.length := by omega
    subst ei ej
    simpa [editDistance_nil_left] using hr
  | succ n ih =>
    intro i j d hi hj hn hr
    rcases Nat.lt_or_ge i src.length with hi' | hi'
    · rcases Nat.lt_or_ge j dst.length with hj' | hj'
      · rw [List.drop_eq_getElem_cons hi', List.drop_eq_getElem_cons hj',
          editDistance_cons_cons]
        by_cases he : src[i] = dst[j]
        · simp only [he, if_true]
          have hm : matchAt src dst (i : Int) (j : Int) := by
            rw [matchAt_natCast]
            refine ⟨hi', hj', ?_⟩
            rw [List.getElem?_eq_getElem hi', List.getElem?_eq_getElem hj', he]
          exact ih (i + 1) (j + 1) d (by omega) (by omega) (by omega)
            (by exact_mod_cast Reach.diag hr hm)
        · simp only [he, if_false]
          rcases Nat.le_total (editDistance (src.drop (i + 1)) (dst[j] :: dst.drop (j + 1)))
            (editDistance (src[i] :: src.drop (i + 1)) (dst.drop (j + 1))) with hle | hle
          · rw [Nat.min_eq_left hle, ← List.drop_eq_getElem_cons hj']
            have := ih (i + 1) j (d + 1) (by omega) (by omega) (by omega)
              (by exact_mod_cast Reach.right hr)
            rw [show d + (1 + editDistance (src.drop (i + 1)) (dst.drop j)) =
              d + 1 + editDistance (src.drop (i + 1)) (dst.drop j) by omega]
            exact this
          · rw [Nat.min_eq_right hle, ← List.drop_eq_getElem_cons hi']
            have := ih i (j + 1) (d + 1) (by omega) (by omega) (by omega)
              (by exact_mod_cast Reach.down hr)
            rw [show d + (1 + editDistance (src.drop i) (dst.drop (j + 1))) =
              d + 1 + editDistance (src.drop i) (dst.drop (j + 1)) by omega]
            exact this
      · have ej : j = dst.length := by omega
        subst ej
        rw [List.drop_length, editDistance_nil_right, List.length_drop]
        have := hr.rights (src.length - i)
        have e : (i : Int) + ((src.length - i : Nat) : Int) = (src.length : Int) := by omega
        rw [e] at this
        exact this
    · have ei : i = src.length := by omega
      subst ei
      rw [List.drop_length, editDistance_nil_left, List.length_drop]
      have := hr.downs (dst.length - j)
      have e : (j : Int) + ((dst.length - j : Nat) : Int) = (dst.length : Int) := by omega
      rw [e] at this
      exact this

/-- The search depth is the edit distance. -/
theorem depth_eq_editDistance (src dst : List String) (D : Nat)
    (hD : found src dst D)
    (hmin : ∀ d : Nat, d < D → ¬ Reach src dst d (src.length : Int) (dst.length : Int)) :
    D = editDistance src dst := by
  have h1 := scriptV_replay src dst D hD
  have h2 := editDistance_le_edits src dst _ 0 0 h1.1
  rw [h1.2] at h2
  simp only [List.drop_zero] at h2
  have h3 := reach_editDistance src dst _ 0 0 0 (by omega) (by omega) (le_refl _)
    (by simpa using Reach.zero)
  simp only [List.drop_zero, Nat.zero_add] at h3
  by_contra hne
  exact hmin _ (by omega) h3

/-- C3: the number of `ADD` and `DELETE` operations of `shortestEditScript`
is the insert/delete-only edit distance of the dynamic-programming
recurrence, which is `len(src) + len(dst)` minus twice the length of a longest
common subsequence, and no script that replays validly against `(src, dst)`
has fewer `ADD` and `DELETE` operations. -/
theorem shortestEditScript_minimal (src dst : List String) :
    ∃ s, shortestEditScript src dst = some s ∧
      edits s = editDistance src dst ∧
      edits s + 2 * lcsLength src dst = src.length + dst.length ∧
      ∀ s' : List opType, replay src dst s' 0 0 = some (src.length, dst.length) →
        edits s ≤ edits s' := by
  obtain ⟨D, _, hD, _, hmin, _, _, hs⟩ := shortestEditScript_spec src dst
  have h1 := scriptV_replay src dst D hD
  have h2 := depth_eq_editDistance src dst D hD hmin
  refine ⟨_, hs, ?_, ?_, ?_⟩
  · rw [h1.2]; exact h2
  · rw [h1.2, h2]; exact editDistance_add_lcsLength _ src dst (le_refl _)
  · intro s' hs'
    rw [h1.2]
    have hr := replay_reach src dst s' 0 0 0 _ _ hs' (by simpa using Reach.zero)
    simp only [Nat.zero_add] at hr
    by_contra hlt
    exact hmin _ (by omega) hr

/-- An instance of the minimality of C3: the script of three `DELETE`s and
three `ADD`s replays validly and is not shorter. -/
theorem shortestEditScript_minimal_witness :
    replay ["a", "b", "c"] ["a", "x", "c"] [DELETE, DELETE, DELETE, ADD, ADD, ADD] 0 0 =
        some (3, 3) ∧
      ∃ s, shortestEditScript ["a", "b", "c"] ["a", "x", "c"] = some s ∧
        edits s ≤ edits [DELETE, DELETE, DELETE, ADD, ADD, ADD] := by
  refine ⟨by decide, ?_⟩
  obtain ⟨s, h1, _, _, h4⟩ := shortestEditScript_minimal ["a", "b", "c"] ["a", "x", "c"]
  exact ⟨s, h1, h4 _ (by decide)⟩

/-! ## Identical and disjoint inputs -/

theorem frontierV_zero_self (S : List String) : frontierV S S 0 0 = (S.length : Int) := by
  obtain ⟨n, _, h2, h3, h4⟩ := slide_spec S S 0 0 (le_refl 0) (le_refl 0)
  have e : frontierV S S 0 0 = (n : Int) := by simp [frontierV, h2]
  rw [e]
  simp only [zero_add] at h3 h4
  have h5 : ¬ n < S.length := by
    intro hlt
    exact h4 ((matchAt_natCast S S n n).mpr ⟨hlt, hlt, rfl⟩)
  have h6 : n ≤ S.length := by
    rcases Nat.eq_zero_or_pos n with h0 | h0
    · omega
    · have := ((matchAt_natCast S S (n - 1) (n - 1)).mp (by
        have := h3 (n - 1) (by omega)
        exact this)).1
      omega
  omega

theorem found_zero_self (S : List String) : found S S 0 := by
  refine ⟨?_, ?_⟩
  · unfold InKeys; simp
  · rw [sub_self]; exact frontierV_zero_self S

theorem not_matchAt_of_disjoint (src dst : List String) (h : ∀ a, a ∈ src → a ∉ dst)
    (x y : Int) : ¬ matchAt src dst x y := by
  rintro ⟨a, h1, h2⟩
  rw [index_eq_some] at h1 h2
  exact h a (List.getElem?_mem h1.2) (List.getElem?_mem h2.2)

theorem slide_of_disjoint (src dst : List String) (h : ∀ a, a ∈ src → a ∉ dst)
    (x y : Int) (hx : 0 ≤ x) (hy : 0 ≤ y) : slide src dst x y = x := by
  obtain ⟨n, _, h2, h3, _⟩ := slide_spec src dst x y hx hy
  rcases Nat.eq_zero_or_pos n with h0 | h0
  · subst h0; simpa using h2
  · exact absurd (h3 0 h0) (not_matchAt_of_disjoint src dst h _ _)

/-- Without common elements there are no snakes: the frontier of depth `d`
is at `x = (d + k) / 2` on diagonal `k`. -/
theorem frontierV_of_disjoint (src dst : List String) (h : ∀ a, a ∈ src → a ∉ dst) :
    ∀ (d : Nat) (k : Int), InKeys d k → frontierV src dst d k = ((d : Int) + k) / 2 := by
  intro d
  induction d with
  | zero =>
    intro k hk
    have hk0 : k = 0 := by unfold InKeys at hk; simp at hk; omega
    subst hk0
    simp [frontierV, slide_of_disjoint src dst h 0 0 (le_refl 0) (le_refl 0)]
  | succ d ih =>
    intro k hk
    obtain ⟨_, hs0, hs1, _⟩ := snake_frontierV src dst d k hk
    simp only [frontierV]
    rw [slide_of_disjoint src dst h _ _ hs0 hs1]
    unfold InKeys at hk
    rcases startXf_cases (frontierV src dst d) d k hk with ⟨h1, h2, _, _⟩ | ⟨h1, h2, _, _⟩
    · rw [h1, ih _ h2]; push_cast at hk ⊢; omega
    · rw [h1, ih _ h2]; push_cast at hk ⊢; omega

theorem pathOps_of_disjoint (src dst : List String) (h : ∀ a, a ∈ src → a ∉ dst) :
    ∀ (d : Nat) (k : Int), InKeys d k →
      pathOps src dst d k =
        List.replicate (((d : Int) + k) / 2).toNat DELETE ++
          List.replicate (((d : Int) - k) / 2).toNat ADD := by
  intro d
  induction d with
  | zero =>
    intro k hk
    have hk0 : k = 0 := by unfold InKeys at hk; simp at hk; omega
    subst hk0
    simp [pathOps]
  | succ d ih =>
    intro k hk
    have hV := frontierV_of_disjoint src dst h
    have hpo : pathOps src dst (d + 1) k =
        pathOps src dst d (prevDiagf (frontierV src dst d) ((d : Int) + 1) k) ++
          [if startXf (frontierV src dst d) ((d : Int) + 1) k =
              frontierV src dst d (prevDiagf (frontierV src dst d) ((d : Int) + 1) k)
            then ADD else DELETE] ++
          List.replicate (frontierV src dst (d + 1) k -
            startXf (frontierV src dst d) ((d : Int) + 1) k).toNat NOOP := rfl
    have hk' := hk
    unfold InKeys at hk'
    push_cast at hk'
    rcases startXf_cases (frontierV src dst d) d k hk with ⟨h1, h2, h3, _⟩ | ⟨h1, h2, h3, h4⟩
    · have h2' := h2
      unfold InKeys at h2'
      have e0 : (frontierV src dst (d + 1) k - frontierV src dst d (k + 1)).toNat = 0 := by
        rw [hV _ _ hk, hV _ _ h2]; push_cast; omega
      rw [hpo, h3, h1, e0, ih _ h2]
      simp only [if_true, List.replicate_zero, List.append_nil, List.append_assoc]
      have e1 : (((d : Int) + (k + 1)) / 2).toNat = ((((d + 1 : Nat) : Int) + k) / 2).toNat := by
        push_cast; omega
      have e2 : ((((d + 1 : Nat) : Int) - k) / 2).toNat =
          (((d : Int) - (k + 1)) / 2).toNat + 1 := by
        push_cast; omega
      rw [e1, e2, List.replicate_succ']
    · have hkd : k = (d : Int) + 1 := by
        by_contra hne
        have h5 : InKeys d (k + 1) := by unfold InKeys; omega
        have := h4 h5
        rw [hV _ _ h5, hV _ _ h2] at this
        omega
      have h2' := h2
      unfold InKeys at h2'
      have e0 : (frontierV src dst (d + 1) k - (frontierV src dst d (k - 1) + 1)).toNat = 0 := by
        rw [hV _ _ hk, hV _ _ h2]; push_cast; omega
      have c2 : ¬ (frontierV src dst d (k - 1) + 1 = frontierV src dst d (k - 1)) := by omega
      rw [hpo, h3, h1, e0, ih _ h2]
      simp only [c2, if_false, List.replicate_zero, List.append_nil]
      have e1 : (((d : Int) - (k - 1)) / 2).toNat = 0 := by omega
      have e2 : ((((d + 1 : Nat) : Int) - k) / 2).toNat = 0 := by push_cast; omega
      have e3 : ((((d + 1 : Nat) : Int) + k) / 2).toNat =
          (((d : Int) + (k - 1)) / 2).toNat + 1 := by
        push_cast; omega
      rw [e1, e2, e3, List.replicate_succ']
      simp

theorem found_of_disjoint (src dst : List String) (h : ∀ a, a ∈ src → a ∉ dst) (D : Nat)
    (hD : found src dst D) : D = src.length + dst.length := by
  have h1 := frontierV_of_disjoint src dst h D _ hD.1
  rw [hD.2] at h1
  have h2 := hD.1
  unfold InKeys at h2
  omega

theorem traceV_last (src dst : List String) (D : Nat) (hD : found src dst D) :
    ∃ last, index (traceV src dst D).v (D : Int) = some last ∧
      last.lookup ((src.length : Int) - (dst.length : Int)) = some (src.length : Int) := by
  obtain ⟨js, _, hjs2, hjs3⟩ := found_index src dst D hD
  refine ⟨frontierUpTo src dst D (js + 1), ?_, ?_⟩
  · rw [index_natCast]
    simp only [traceV, hjs3]
    rw [List.getElem?_append_right (by simp)]
    simp
  · have h := hD.2
    simp only [frontierUpTo, Frontier.set]
    rw [← hjs2, h]
    simp [List.lookup]

/-! ## The claims about the edit script -/

/-- C1: replaying `shortestEditScript(src, dst)` from the cursors `(0, 0)`
never overruns a sequence, meets a `NOOP` only where `src[i] == dst[j]`, and
ends with the cursors at `len(src)` and `len(dst)`. -/
theorem shortestEditScript_replay (src dst : List String) :
    ∃ s, shortestEditScript src dst = some s ∧
      replay src dst s 0 0 = some (src.length, dst.length) := by
  obtain ⟨D, _, hD, _, _, _, _, hs⟩ := shortestEditScript_spec src dst
  exact ⟨_, hs, (scriptV_replay src dst D hD).1⟩

/-- C2: in `shortestEditScript(src, dst)` the `DELETE` and `NOOP` operations
number `len(src)`, and the `ADD` and `NOOP` operations number `len(dst)`. -/
theorem shortestEditScript_complete (src dst : List String) :
    ∃ s, shortestEditScript src dst = some s ∧
      countOp DELETE s + countOp NOOP s = src.length ∧
      countOp ADD s + countOp NOOP s = dst.length := by
  obtain ⟨D, _, hD, _, _, _, _, hs⟩ := shortestEditScript_spec src dst
  have h := replay_count src dst _ 0 0 _ _ (scriptV_replay src dst D hD).1
  exact ⟨_, hs, by omega, by omega⟩

/-- C4: for every sequence `S`, the empty one included,
`shortestEditScript(S, S)` is `len(S)` times `NOOP`, without any `ADD` or
`DELETE`. -/
theorem shortestEditScript_self (S : List String) :
    shortestEditScript S S = some (List.replicate S.length NOOP) := by
  obtain ⟨D, _, _, hmin, _, _, _, hs⟩ := shortestEditScript_spec S S
  have hD0 : D = 0 := by
    by_contra hne
    exact hmin 0 (by omega) (found_zero_self S)
  subst hD0
  rw [hs]
  simp [scriptV, pathOps, frontierV_zero_self]

/-- C5: for `src` and `dst` without a common element (either may be empty),
`shortestEditScript(src, dst)` is `len(src)` times `DELETE` followed by
`len(dst)` times `ADD`; the three boundary examples of the specification are
instances. -/
theorem shortestEditScript_disjoint :
    (∀ src dst : List String, (∀ a, a ∈ src → a ∉ dst) →
      shortestEditScript src dst =
        some (List.replicate src.length DELETE ++ List.replicate dst.length ADD)) ∧
    shortestEditScript [] ["a", "b"] = some [ADD, ADD] ∧
    shortestEditScript ["a", "b"] [] = some [DELETE, DELETE] ∧
    shortestEditScript [] [] = some [] := by
  refine ⟨?_, by decide, by decide, by decide⟩
  intro src dst h
  obtain ⟨D, _, hD, _, _, _, _, hs⟩ := shortestEditScript_spec src dst
  have hDe := found_of_disjoint src dst h D hD
  subst hDe
  rw [hs]
  have h0 : frontierV src dst 0 0 = 0 := by
    have := frontierV_of_disjoint src dst h 0 0 (by unfold InKeys; simp)
    simpa using this
  simp only [scriptV, h0, Int.toNat_zero, List.replicate_zero, List.nil_append]
  rw [pathOps_of_disjoint src dst h _ _ hD.1]
  congr 2
  · congr 1; push_cast; omega
  · congr 1; push_cast; omega

/-- An instance of C5 on inputs without a common element. -/
theorem shortestEditScript_disjoint_witness :
    (∀ a, a ∈ ["a", "b"] → a ∉ ["x"]) ∧
      shortestEditScript ["a", "b"] ["x"] = some [DELETE, DELETE, ADD] :=
  ⟨by decide, shortestEditScript_disjoint.1 ["a", "b"] ["x"] (by decide)⟩

/-- C6: for `src = ["a","b","c"]` and `dst = ["a","x","c"]` the script is
`[NOOP, DELETE, ADD, NOOP]`, the `DELETE` before the `ADD`, with two
operations that are not `NOOP`. -/
theorem shortestEditScript_abc_axc :
    shortestEditScript ["a", "b", "c"] ["a", "x", "c"] = some [NOOP, DELETE, ADD, NOOP] ∧
      edits [NOOP, DELETE, ADD, NOOP] = 2 := by
  constructor <;> decide

/-- C7: `createTrace` returns from inside the depth loop, at a depth
`D <= N + M` at which the end point is reached: the trace has `D + 1`
frontiers and the last one maps diagonal `N - M` to `x = N`. -/
theorem createTrace_reaches_end (src dst : List String) :
    ∃ (t : trace) (D : Nat), createTraceAux src dst = some (t, true) ∧
      createTrace src dst = some t ∧
      D ≤ src.length + dst.length ∧ t.v.length = D + 1 ∧
      ∃ last, index t.v (D : Int) = some last ∧
        last.lookup ((src.length : Int) - (dst.length : Int)) = some (src.length : Int) := by
  obtain ⟨D, hle, hD, _, _, h1, h2, _⟩ := shortestEditScript_spec src dst
  exact ⟨_, D, h1, h2, hle, traceV_length src dst D, traceV_last src dst D hD⟩

/-! ## The renderer -/

theorem inRange_of_replay (src dst : List String) :
    ∀ (s : List opType) (i j : Nat) (r : Nat × Nat), replay src dst s i j = some r →
      inRange src dst s i j = true := by
  intro s
  induction s with
  | nil => intro i j r _; rfl
  | cons op s ih =>
    intro i j r h
    cases op
    · simp only [replay] at h
      split at h
      · next hc => simp [inRange, hc, ih _ _ _ h]
      · simp at h
    · simp only [replay] at h
      split at h
      · next hc => simp [inRange, hc, ih _ _ _ h]
      · simp at h
    · simp only [replay] at h
      split at h
      · next hc => simp [inRange, hc.1, ih _ _ _ h]
      · simp at h

theorem index_getD (s : List String) (i : Nat) (h : i < s.length) :
    index s (i : Int) = some (s.getD i "") := by
  rw [index_natCast, List.getD_eq_getElem?_getD, List.getElem?_eq_getElem h]
  simp

theorem concatLines_append_left (buf a : String) (l : List String) :
    buf ++ concatLines (a :: l) = buf ++ a ++ concatLines l := by
  simp [concatLines, String.append_assoc]

/-- The loop of `writeDiff` on an in-range script appends to the buffer the
lines of the operations whose kind is printed. -/
theorem writeLoop_spec (src dst : List String) (opts : DiffOptions) :
    ∀ (s : List opType) (i j : Nat) (buf : String), inRange src dst s i j = true →
      ∃ i' j' : Nat, writeLoop src dst opts s (buf, (i : Int), (j : Int)) =
        some (buf ++ concatLines
          (((linesFrom src dst s i j).filter (fun l => printed opts l.1)).map (fun l => l.2)),
          (i' : Int), (j' : Int)) := by
  intro s
  induction s with
  | nil =>
    intro i j buf _
    exact ⟨i, j, by simp [writeLoop, linesFrom, concatLines]⟩
  | cons op s ih =>
    intro i j buf h
    cases op
    · simp only [inRange, Bool.and_eq_true, decide_eq_true_eq] at h
      by_cases hp : opts.PrintAdd = true
      · obtain ⟨i', j', h'⟩ := ih i (j + 1) (buf ++ "+ " ++ dst.getD j "" ++ "\n") h.2
        refine ⟨i', j', ?_⟩
        simp only [writeLoop, writeOp, hp, if_true, index_getD dst j h.1]
        push_cast at h'
        rw [h']
        simp [linesFrom, printed, hp, concatLines, lineOf, String.append_assoc]
      · obtain ⟨i', j', h'⟩ := ih i (j + 1) buf h.2
        refine ⟨i', j', ?_⟩
        simp only [writeLoop, writeOp, hp]
        push_cast at h'
        simp only [Bool.false_eq_true, if_false]
        rw [h']
        simp [linesFrom, printed, hp]
    · simp only [inRange, Bool.and_eq_true, decide_eq_true_eq] at h
      by_cases hp : opts.PrintDelete = true
      · obtain ⟨i', j', h'⟩ := ih (i + 1) j (buf ++ "- " ++ src.getD i "" ++ "\n") h.2
        refine ⟨i', j', ?_⟩
        simp only [writeLoop, writeOp, hp, if_true, index_getD src i h.1]
        push_cast at h'
        rw [h']
        simp [linesFrom, printed, hp, concatLines, lineOf, String.append_assoc]
      · obtain ⟨i', j', h'⟩ := ih (i + 1) j buf h.2
        refine ⟨i', j', ?_⟩
        simp only [writeLoop, writeOp, hp]
        push_cast at h'
        simp only [Bool.false_eq_true, if_false]
        rw [h']
        simp [linesFrom, printed, hp]
    · simp only [inRange, Bool.and_eq_true, decide_eq_true_eq] at h
      by_cases hp : opts.PrintNoOp = true
      · obtain ⟨i', j', h'⟩ := ih (i + 1) (j + 1) (buf ++ "  " ++ src.getD i "" ++ "\n") h.2
        refine ⟨i', j', ?_⟩
        simp only [writeLoop, writeOp, hp, if_true, index_getD src i h.1]
        push_cast at h'
        rw [h']
        simp [linesFrom, printed, hp, concatLines, lineOf, String.append_assoc]
      · obtain ⟨i', j', h'⟩ := ih (i + 1) (j + 1) buf h.2
        refine ⟨i', j', ?_⟩
        simp only [writeLoop, writeOp, hp]
        push_cast at h'
        simp only [Bool.false_eq_true, if_false]
        rw [h']
        simp [linesFrom, printed, hp]

theorem srcCount_append_singleton (pre : List opType) (op : opType) :
    srcCount (pre ++ [op]) = srcCount pre + (if op = ADD then 0 else 1) := by
  cases op <;> simp [srcCount, countOp, List.count_append] <;> omega

theorem dstCount_append_singleton (pre : List opType) (op : opType) :
    dstCount (pre ++ [op]) = dstCount pre + (if op = DELETE then 0 else 1) := by
  cases op <;> simp [dstCount, countOp, List.count_append] <;> omega

theorem getElem?_append_length (pre s : List opType) (op : opType) :
    (pre ++ op :: s)[pre.length]? = some op := by
  rw [List.getElem?_append_right (le_refl _)]
  simp

theorem lineAt_append (src dst : List String) (pre s : List opType) (op : opType) :
    lineAt src dst (pre ++ op :: s) pre.length =
      lineOf src dst op (srcCount pre) (dstCount pre) := by
  simp only [lineAt, getElem?_append_length]
  simp

theorem printedAt_append (opts : DiffOptions) (pre s : List opType) (op : opType) :
    printedAt opts (pre ++ op :: s) pre.length = printed opts op := by
  simp only [printedAt, getElem?_append_length]

/-- The lines of `linesFrom` are the lines of the positions of the script. -/
theorem linesFrom_positions (src dst : List String) (opts : DiffOptions) :
    ∀ (s pre : List opType),
      ((linesFrom src dst s (srcCount pre) (dstCount pre)).filter
          (fun l => printed opts l.1)).map (fun l => l.2) =
        ((List.range' pre.length s.length).filter (printedAt opts (pre ++ s))).map
          (lineAt src dst (pre ++ s)) := by
  intro s
  induction s with
  | nil => intro pre; simp [linesFrom]
  | cons op s ih =>
    intro pre
    have h := ih (pre ++ [op])
    rw [srcCount_append_singleton, dstCount_append_singleton] at h
    simp only [List.length_append, List.length_singleton, List.append_assoc,
      List.singleton_append] at h
    simp only [List.length_cons, List.range'_succ, List.filter_cons, printedAt_append]
    cases op
    · simp only [linesFrom, List.filter_cons]
      simp only [reduceCtorEq, if_true, if_false, Nat.add_zero] at h
      by_cases hp : printed opts ADD = true
      · simp only [hp, if_true, List.map_cons, lineAt_append, h]
      · simp only [hp, Bool.false_eq_true, if_false, h]
    · simp only [linesFrom, List.filter_cons]
      simp only [reduceCtorEq, if_true, if_false, Nat.add_zero] at h
      by_cases hp : printed opts DELETE = true
      · simp only [hp, if_true, List.map_cons, lineAt_append, h]
      · simp only [hp, Bool.false_eq_true, if_false, h]
    · simp only [linesFrom, List.filter_cons]
      simp only [reduceCtorEq, if_true, if_false, Nat.add_zero] at h
      by_cases hp : printed opts NOOP = true
      · simp only [hp, if_true, List.map_cons, lineAt_append, h]
      · simp only [hp, Bool.false_eq_true, if_false, h]

/-- The output of `writeDiff` on an in-range script, for any options. -/
theorem writeDiff_spec (src dst : List String) (opts : DiffOptions) (script : List opType)
    (h : inRange src dst script 0 0 = true) :
    writeDiff src dst script opts =
      some (concatLines (((List.range script.length).filter (printedAt opts script)).map
        (lineAt src dst script))) := by
  obtain ⟨i', j', h'⟩ := writeLoop_spec src dst opts script 0 0 "" h
  have hp := linesFrom_positions src dst opts script []
  simp only [srcCount, dstCount, countOp, List.count_nil, List.length_nil, List.nil_append,
    Nat.add_zero] at hp
  unfold writeDiff
  simp only [Nat.cast_zero] at h'
  rw [h', hp, List.range_eq_range']
  simp

theorem filter_printedAt_all (script : List opType) :
    (List.range script.length).filter (printedAt NewOptions script) =
      List.range script.length := by
  rw [List.filter_eq_self]
  intro p hp
  have hlt : p < script.length := List.mem_range.mp hp
  simp only [printedAt, List.getElem?_eq_getElem hlt]
  cases script[p] <;> rfl

/-! ## The claims about the renderer -/

/-- C8: `GenerateDiff` never reads `src` or `dst` out of range, whatever the
options: on the script of `shortestEditScript(src, dst)` every `ADD` is met
with `dstIndex < len(dst)` and every `NOOP` or `DELETE` with
`srcIndex < len(src)`, and `GenerateDiff` returns its buffer. -/
theorem GenerateDiff_in_range (src dst : List String) (opts : DiffOptions) :
    ∃ script out, shortestEditScript src dst = some script ∧
      inRange src dst script 0 0 = true ∧
      writeDiff src dst script opts = some out ∧
      GenerateDiff src dst opts = some out := by
  obtain ⟨D, _, hD, _, _, _, _, hs⟩ := shortestEditScript_spec src dst
  have hr := inRange_of_replay src dst _ 0 0 _ (scriptV_replay src dst D hD).1
  have hw := writeDiff_spec src dst opts _ hr
  exact ⟨_, _, hs, hr, hw, by simp only [GenerateDiff, hs]; exact hw⟩

/-- C9: on a script whose replay stays in range, `writeDiff` with the three
options enabled returns the concatenation, in script order, of one line per
operation: `"+ " + dst[j] + "\n"` for `ADD`, `"- " + src[i] + "\n"` for
`DELETE`, two spaces `+ src[i] + "\n"` for `NOOP`, with `i` the number of
earlier `DELETE`/`NOOP` and `j` the number of earlier `ADD`/`NOOP` operations. -/
theorem writeDiff_all_lines (src dst : List String) (script : List opType)
    (h : inRange src dst script 0 0 = true) :
    writeDiff src dst script NewOptions =
      some (concatLines ((List.range script.length).map (lineAt src dst script))) := by
  rw [writeDiff_spec src dst NewOptions script h, filter_printedAt_all]

/-- An instance of C9 on the script of the concrete scenario. -/
theorem writeDiff_all_lines_witness :
    inRange ["a", "b", "c"] ["a", "x", "c"] [NOOP, DELETE, ADD, NOOP] 0 0 = true ∧
      writeDiff ["a", "b", "c"] ["a", "x", "c"] [NOOP, DELETE, ADD, NOOP] NewOptions =
        some (concatLines ((List.range [NOOP, DELETE, ADD, NOOP].length).map
          (lineAt ["a", "b", "c"] ["a", "x", "c"] [NOOP, DELETE, ADD, NOOP]))) :=
  ⟨by decide, writeDiff_all_lines _ _ _ (by decide)⟩

/-- C10: on an in-range script, for every setting of the three options the
output of `writeDiff` is the output with all options enabled without the
lines of the disabled operation kinds: the line of each operation, `lineAt`,
does not depend on the options. -/
theorem writeDiff_options (src dst : List String) (script : List opType)
    (opts : DiffOptions) (h : inRange src dst script 0 0 = true) :
    writeDiff src dst script NewOptions =
        some (concatLines ((List.range script.length).map (lineAt src dst script))) ∧
      writeDiff src dst script opts =
        some (concatLines (((List.range script.length).filter (printedAt opts script)).map
          (lineAt src dst script))) := by
  refine ⟨?_, writeDiff_spec src dst opts script h⟩
  rw [writeDiff_spec src dst NewOptions script h, filter_printedAt_all]

/-- An instance of C10 with only the `ADD` lines printed. -/
theorem writeDiff_options_witness :
    inRange ["a", "b", "c"] ["a", "x", "c"] [NOOP, DELETE, ADD, NOOP] 0 0 = true ∧
      writeDiff ["a", "b", "c"] ["a", "x", "c"] [NOOP, DELETE, ADD, NOOP]
          { PrintAdd := true, PrintNoOp := false, PrintDelete := false } =
        some (concatLines (((List.range [NOOP, DELETE, ADD, NOOP].length).filter
          (printedAt { PrintAdd := true, PrintNoOp := false, PrintDelete := false }
            [NOOP, DELETE, ADD, NOOP])).map
          (lineAt ["a", "b", "c"] ["a", "x", "c"] [NOOP, DELETE, ADD, NOOP]))) :=
  ⟨by decide, (writeDiff_options _ _ _ _ (by decide)).2⟩


/-! ## The iterations and the reads of the trace builder -/

theorem Frontier.lookup_set (v : Frontier) (k x k' : Int) :
    (v.set k x).lookup k' = if k' = k then some x else v.lookup k' := by
  unfold Frontier.set
  by_cases h : k' = k
  · subst h; simp [List.lookup]
  · have : (k' == k) = false := by simpa using h
    simp [List.lookup, this, h]

theorem frontierUpTo_lookup (src dst : List String) (d : Nat) :
    ∀ (i j : Nat), j < i →
      (frontierUpTo src dst d i).lookup (-(d : Int) + 2 * (j : Int)) =
        some (frontierV src dst d (-(d : Int) + 2 * (j : Int))) := by
  intro i
  induction i with
  | zero => intro j hj; omega
  | succ i ih =>
    intro j hj
    simp only [frontierUpTo, Frontier.lookup_set]
    by_cases h : j = i
    · subst h; simp
    · have : ¬ (-(d : Int) + 2 * (j : Int) = -(d : Int) + 2 * (i : Int)) := by omega
      simp only [this, if_false]
      exact ih j (by omega)

theorem frontierUpTo_lookup_none (src dst : List String) (d : Nat) :
    ∀ (i : Nat) (k : Int), (∀ j : Nat, j < i → k ≠ -(d : Int) + 2 * (j : Int)) →
      (frontierUpTo src dst d i).lookup k = none := by
  intro i
  induction i with
  | zero => intro k _; rfl
  | succ i ih =>
    intro k hk
    simp only [frontierUpTo, Frontier.lookup_set]
    rw [if_neg (hk i (by omega))]
    exact ih k (fun j hj => hk j (by omega))

theorem frontierUpTo_full_lookup (src dst : List String) (d : Nat) (k : Int)
    (hk : InKeys d k) :
    (frontierUpTo src dst d (d + 1)).lookup k = some (frontierV src dst d k) := by
  obtain ⟨j, h1, h2⟩ := (InKeys_iff d k).mp hk
  subst h2
  exact frontierUpTo_lookup src dst d (d + 1) j (by omega)

theorem mem_frontierUpTo (src dst : List String) (d : Nat) :
    ∀ (i : Nat) (p : Int × Int), p ∈ frontierUpTo src dst d i →
      ∃ j : Nat, j < i ∧ p = (-(d : Int) + 2 * (j : Int),
        frontierV src dst d (-(d : Int) + 2 * (j : Int))) := by
  intro i
  induction i with
  | zero => intro p hp; simp [frontierUpTo] at hp
  | succ i ih =>
    intro p hp
    simp only [frontierUpTo, Frontier.set, List.mem_cons] at hp
    rcases hp with hp | hp
    · exact ⟨i, by omega, hp⟩
    · obtain ⟨j, hj, e⟩ := ih p hp
      exact ⟨j, by omega, e⟩

theorem firstDiffReads_mem (src dst : List String) :
    ∀ (fuel : Nat) (i : Int) (p : Int × Int), p ∈ firstDiffReads src dst fuel i →
      i ≤ p.1 ∧ p.1 < (src.length : Int) ∧ i ≤ p.2 ∧ p.2 < (dst.length : Int) := by
  intro fuel
  induction fuel with
  | zero => intro i p hp; simp [firstDiffReads] at hp
  | succ fuel ih =>
    intro i p hp
    unfold firstDiffReads at hp
    split at hp
    · next hc =>
      simp only [List.mem_cons] at hp
      rcases hp with hp | hp
      · subst hp; simp only; omega
      · split at hp
        · split at hp
          · have := ih _ _ hp; omega
          · simp at hp
        · simp at hp
    · simp at hp

theorem snakeReads_mem (src dst : List String) :
    ∀ (fuel : Nat) (x y : Int) (p : Int × Int), p ∈ snakeReads src dst fuel x y →
      x ≤ p.1 ∧ p.1 < (src.length : Int) ∧ y ≤ p.2 ∧ p.2 < (dst.length : Int) := by
  intro fuel
  induction fuel with
  | zero => intro x y p hp; simp [snakeReads] at hp
  | succ fuel ih =>
    intro x y p hp
    unfold snakeReads at hp
    split at hp
    · next hc =>
      simp only [List.mem_cons] at hp
      rcases hp with hp | hp
      · subst hp; simp only; omega
      · split at hp
        · split at hp
          · have := ih _ _ _ hp; omega
          · simp at hp
        · simp at hp
    · simp at hp

theorem kLoopVisits_mem (src dst : List String) (d : Int) (lastV : Frontier) :
    ∀ (fuel : Nat) (k : Int) (v : Int × Frontier × Int),
      v ∈ kLoopVisits src dst d lastV fuel k →
      v.1 = d ∧ v.2.1 = lastV ∧ k ≤ v.2.2 ∧ v.2.2 ≤ d ∧ (v.2.2 - k) % 2 = 0 := by
  intro fuel
  induction fuel with
  | zero => intro k v hv; simp [kLoopVisits] at hv
  | succ fuel ih =>
    intro k v hv
    unfold kLoopVisits at hv
    split at hv
    · next hc =>
      simp only [List.mem_cons] at hv
      rcases hv with hv | hv
      · subst hv
        exact ⟨rfl, rfl, le_refl _, hc, by simp⟩
      · split at hv
        · simp at hv
        · split at hv
          · simp at hv
          · obtain ⟨m1, m2, m3, m4, m5⟩ := ih _ _ hv
            exact ⟨m1, m2, by omega, m4, by omega⟩
    · simp at hv

/-- Every iteration of the loop over the diagonals that the loop over the
depths executes works on a complete previous frontier. -/
theorem dLoopVisits_mem (src dst : List String) (maxLen : Int) (D : Nat)
    (hD : found src dst D) (hmin : ∀ d : Nat, d < D → ¬ found src dst d)
    (hDle : (D : Int) ≤ maxLen) :
    ∀ (fuel d : Nat) (t : trace), d + 1 ≤ D → D + 1 ≤ d + 1 + fuel →
      t.v = (List.range (d + 1)).map (fun d => frontierUpTo src dst d (d + 1)) →
      ∀ v, v ∈ dLoopVisits src dst maxLen fuel ((d : Int) + 1) t →
        ∃ d' : Nat, d' + 1 ≤ D ∧ v.1 = (d' : Int) + 1 ∧
          v.2.1 = frontierUpTo src dst d' (d' + 1) ∧ InKeys (d' + 1) v.2.2 := by
  intro fuel
  induction fuel with
  | zero => intro d t h1 h2; omega
  | succ fuel ih =>
    intro d t h1 h2 hv v hmem
    unfold dLoopVisits at hmem
    have c1 : (d : Int) + 1 ≤ maxLen := by omega
    have c2 : ¬ ((d : Int) + 1 = 0) := by omega
    simp only [c1, c2, if_true, if_false] at hmem
    have e1 : (d : Int) + 1 - 1 = (d : Int) := by ring
    rw [e1, index_natCast, hv, range_map_getElem? _ _ _ (by omega)] at hmem
    simp only at hmem
    rw [List.mem_append] at hmem
    rcases hmem with hmem | hmem
    · obtain ⟨m1, m2, m3, m4, m5⟩ := kLoopVisits_mem src dst _ _ _ _ _ hmem
      refine ⟨d, h1, m1, m2, ?_⟩
      unfold InKeys
      push_cast
      omega
    · have hl : ∀ k', InKeys d k' →
          (frontierUpTo src dst d (d + 1)).get k' = frontierV src dst d k' :=
        fun k' hk' => frontierUpTo_full_get src dst d k' hk'
      have e2 : ((d : Int) + 1).toNat + 2 = d + 3 := by omega
      have e3 : -((d : Int) + 1) = -((d : Int) + 1) + 2 * ((0 : Nat) : Int) := by simp
      have e4 : ([] : Frontier) = frontierUpTo src dst (d + 1) 0 := rfl
      rw [e2, e3, e4] at hmem
      by_cases hlt : d + 1 < D
      · have hnf := hmin (d + 1) hlt
        rw [kLoop_complete src dst d _ hl (d + 3) 0 (by omega) (by omega)
          (fun j _ hj2 hh => hnf (hit_found src dst (d + 1) j hj2 (by push_cast; exact hh)).1)]
          at hmem
        simp only at hmem
        have e5 : ((d : Int) + 1 + 1) = (((d + 1 : Nat) : Int) + 1) := by push_cast; ring
        rw [e5] at hmem
        refine ih (d + 1) (t.append _) (by omega) (by omega) ?_ v hmem
        simp only [trace.append, hv]
        rw [@List.range_succ (d + 1), List.map_append]
        simp
      · have hDe : D = d + 1 := by omega
        subst hDe
        obtain ⟨js, hjs1, hjs2, hjs3⟩ := found_index src dst (d + 1) hD
        have hhit : frontierV src dst (d + 1) (-((d : Int) + 1) + 2 * (js : Int)) =
              (src.length : Int) ∧
            frontierV src dst (d + 1) (-((d : Int) + 1) + 2 * (js : Int)) -
              (-((d : Int) + 1) + 2 * (js : Int)) = (dst.length : Int) := by
          have h := hD.2
          push_cast at hjs2
          rw [hjs2] at h
          constructor
          · exact h
          · rw [h]; omega
        rw [kLoop_found src dst d _ hl js hjs1 hhit (d + 3) 0 (by omega) (by omega)
          (fun j _ hj2 hh => by
            have := (hit_found src dst (d + 1) j (by omega) (by push_cast; exact hh)).2
            push_cast at this hjs2
            omega)] at hmem
        simp at hmem

theorem createTraceVisits_mem (src dst : List String) (D : Nat)
    (hDle : D ≤ src.length + dst.length)
    (hD : found src dst D) (hmin : ∀ d : Nat, d < D → ¬ found src dst d) :
    ∀ v, v ∈ createTraceVisits src dst →
      ∃ d' : Nat, d' + 1 ≤ D ∧ v.1 = (d' : Int) + 1 ∧
        v.2.1 = frontierUpTo src dst d' (d' + 1) ∧ InKeys (d' + 1) v.2.2 := by
  intro v hmem
  unfold createTraceVisits at hmem
  unfold dLoopVisits at hmem
  have c1 : (0 : Int) ≤ (src.length : Int) + (dst.length : Int) := by omega
  simp only [c1, if_true, firstDiffLoop_spec] at hmem
  split at hmem
  · simp at hmem
  · next hc =>
    have hpos : 0 < D := by
      rcases Nat.eq_zero_or_pos D with h0 | h0
      · exfalso
        subst h0
        have hk := hD.1
        have hv := hD.2
        unfold InKeys at hk
        have e : (src.length : Int) - dst.length = 0 := by simp at hk; omega
        rw [e] at hv
        exact hc ⟨hv, by omega⟩
      · exact h0
    have e0 : (0 : Int) + 1 = ((0 : Nat) : Int) + 1 := by simp
    rw [e0] at hmem
    refine dLoopVisits_mem src dst _ D hD hmin (by exact_mod_cast hDle) _ 0 _ (by omega)
      (by omega) ?_ v hmem
    simp [trace.append, frontierUpTo, List.range_succ]

/-- The point computed before the snake of an iteration on a complete
previous frontier is the start point of the complete frontiers. -/
theorem visitStart_eq (src dst : List String) (d : Nat) (k : Int) (hk : InKeys (d + 1) k) :
    visitStart ((d : Int) + 1, frontierUpTo src dst d (d + 1), k) =
      (startXf (frontierV src dst d) ((d : Int) + 1) k,
        startXf (frontierV src dst d) ((d : Int) + 1) k - k) := by
  have hl : ∀ k', InKeys d k' →
      (frontierUpTo src dst d (d + 1)).get k' = frontierV src dst d k' :=
    fun k' hk' => frontierUpTo_full_get src dst d k' hk'
  simp only [visitStart, startX_eq, (startXf_congr _ _ d _ hk hl).1]

theorem switchKeys_inKeys (d : Nat) (k : Int) (hk : InKeys (d + 1) k) :
    ∀ key, key ∈ switchKeys ((d : Int) + 1) k → InKeys d key := by
  intro key hmem
  unfold InKeys at *
  unfold switchKeys at hmem
  push_cast at hk
  split at hmem
  · simp at hmem; omega
  · split at hmem
    · simp at hmem; omega
    · simp at hmem; omega

/-! ## The iterations of the backward walk -/

theorem noopLoop_fst (prevX prevY : Int) (n fuel : Nat) (x y : Int) (hf : n < fuel)
    (h1 : prevX ≤ x - n) (h2 : prevY ≤ y - n) (h3 : x - n = prevX ∨ y - n = prevY) :
    ∃ script, noopLoop fuel x y prevX prevY [] = some (x - n, y - n, script) :=
  ⟨_, noopLoop_spec prevX prevY n fuel x y [] hf h1 h2 h3⟩

theorem scriptLoopSteps_spec (src dst : List String) (t : trace) (D : Nat)
    (ht : ∀ d : Nat, d < D → index t.v (d : Int) = some (frontierUpTo src dst d (d + 1))) :
    ∀ (d fuel : Nat) (k : Int), d ≤ D → d < fuel → InKeys d k →
      scriptLoopSteps t fuel (d : Int) (frontierV src dst d k) (frontierV src dst d k - k) =
        stepsV src dst d k := by
  intro d
  induction d with
  | zero =>
    intro fuel k _ hf _
    obtain ⟨f, rfl⟩ : ∃ f, fuel = f + 1 := ⟨fuel - 1, by omega⟩
    simp [scriptLoopSteps, stepsV]
  | succ d ih =>
    intro fuel k hd hf hk
    obtain ⟨f, rfl⟩ : ∃ f, fuel = f + 1 := ⟨fuel - 1, by omega⟩
    unfold scriptLoopSteps
    have c1 : ((d + 1 : Nat) : Int) > 0 := by push_cast; omega
    simp only [c1, if_true]
    have e1 : ((d + 1 : Nat) : Int) - 1 = (d : Int) := by push_cast; ring
    have e2 : frontierV src dst (d + 1) k - (frontierV src dst (d + 1) k - k) = k := by ring
    have e3 : ((d + 1 : Nat) : Int) = (d : Int) + 1 := by push_cast; ring
    rw [e1, ht d (by omega), e2]
    simp only
    have hl : ∀ k', InKeys d k' →
        (frontierUpTo src dst d (d + 1)).get k' = frontierV src dst d k' :=
      fun k' hk' => frontierUpTo_full_get src dst d k' hk'
    rw [prevDiag_eq, e3, (startXf_congr _ _ d _ hk hl).2]
    obtain ⟨_, _, _, n, hn, _⟩ := snake_frontierV src dst d k hk
    simp only [stepsV, stepV]
    rcases startXf_cases (frontierV src dst d) d k hk with ⟨h1, h2, h3, _⟩ | ⟨h1, h2, h3, _⟩
    · rw [h3, hl _ h2, h1]
      rw [h1] at hn
      obtain ⟨sc, hsc⟩ := noopLoop_fst (frontierV src dst d (k + 1))
        (frontierV src dst d (k + 1) - (k + 1)) n
        ((frontierV src dst (d + 1) k - frontierV src dst d (k + 1)).toNat + 1)
        (frontierV src dst (d + 1) k) (frontierV src dst (d + 1) k - k)
        (by omega) (by omega) (by omega) (Or.inl (by omega))
      rw [hsc]
      simp only
      have e4 : frontierV src dst (d + 1) k - (n : Int) = frontierV src dst d (k + 1) := by omega
      have e5 : frontierV src dst (d + 1) k - k - (n : Int) =
          frontierV src dst d (k + 1) - k := by omega
      rw [e4, e5, ih f (k + 1) (by omega) (by omega) h2]
      simp
    · rw [h3, hl _ h2, h1]
      rw [h1] at hn
      obtain ⟨sc, hsc⟩ := noopLoop_fst (frontierV src dst d (k - 1))
        (frontierV src dst d (k - 1) - (k - 1)) n
        ((frontierV src dst (d + 1) k - frontierV src dst d (k - 1)).toNat + 1)
        (frontierV src dst (d + 1) k) (frontierV src dst (d + 1) k - k)
        (by omega) (by omega) (by omega) (Or.inr (by omega))
      rw [hsc]
      simp only
      have e4 : frontierV src dst (d + 1) k - (n : Int) =
          frontierV src dst d (k - 1) + 1 := by omega
      have e5 : frontierV src dst (d + 1) k - k - (n : Int) =
          frontierV src dst d (k - 1) + 1 - k := by omega
      rw [e4, e5, ih f (k - 1) (by omega) (by omega) h2]

theorem createScriptSteps_spec (src dst : List String) (D : Nat) (hD : found src dst D) :
    createScriptSteps (traceV src dst D) =
      stepsV src dst D ((src.length : Int) - (dst.length : Int)) := by
  unfold createScriptSteps
  have e1 : (traceV src dst D).length - 1 = (D : Int) := by
    simp [trace.length, traceV_length]
  have e2 : (traceV src dst D).srcLen =
      frontierV src dst D ((src.length : Int) - dst.length) := by
    rw [hD.2]; rfl
  have e3 : (traceV src dst D).dstLen =
      frontierV src dst D ((src.length : Int) - dst.length) -
        ((src.length : Int) - dst.length) := by
    rw [hD.2]; simp [traceV]
  rw [e1, e2, e3, traceV_length]
  exact scriptLoopSteps_spec src dst (traceV src dst D) D
    (fun d hd => traceV_index src dst D d hd) D (D + 1) _ (le_refl D) (by omega) hD.1

theorem stepsV_length (src dst : List String) :
    ∀ (d : Nat) (k : Int), (stepsV src dst d k).length = d := by
  intro d
  induction d with
  | zero => intro k; rfl
  | succ d ih => intro k; simp [stepsV, ih]

theorem stepsV_depths (src dst : List String) :
    ∀ (d : Nat) (k : Int),
      (stepsV src dst d k).map (fun s => s.d) =
        (List.range d).map (fun (i : Nat) => (d : Int) - (i : Int)) := by
  intro d
  induction d with
  | zero => intro k; rfl
  | succ d ih =>
    intro k
    simp only [stepsV, List.map_cons, ih, List.range_succ_eq_map, List.map_map]
    congr 1
    · simp [stepV]

theorem stepsV_mem (src dst : List String) :
    ∀ (d0 : Nat) (k0 : Int) (s : BackStep), InKeys d0 k0 → s ∈ stepsV src dst d0 k0 →
      ∃ (d : Nat) (k : Int), s = stepV src dst d k ∧ InKeys (d + 1) k ∧
        (d + 1 < d0 ∨ (d + 1 = d0 ∧ k = k0)) := by
  intro d0
  induction d0 with
  | zero => intro k0 s _ hs; simp [stepsV] at hs
  | succ d0 ih =>
    intro k0 s hk hs
    simp only [stepsV, List.mem_cons] at hs
    rcases hs with hs | hs
    · exact ⟨d0, k0, hs, hk, Or.inr ⟨rfl, rfl⟩⟩
    · have hpk : InKeys d0 (prevDiagf (frontierV src dst d0) ((d0 : Int) + 1) k0) := by
        rcases startXf_cases (frontierV src dst d0) d0 k0 hk with ⟨_, h2, h3, _⟩ | ⟨_, h2, h3, _⟩
        · rw [h3]; exact h2
        · rw [h3]; exact h2
      obtain ⟨d, k, e, hk', hor⟩ := ih _ s hpk hs
      refine ⟨d, k, e, hk', Or.inl ?_⟩
      rcases hor with h | h
      · omega
      · omega

/-- The facts about one iteration of the backward walk on complete frontiers. -/
theorem stepV_facts (src dst : List String) (d : Nat) (k : Int) (hk : InKeys (d + 1) k) :
    (stepV src dst d k).prevX ≤ (stepV src dst d k).x ∧
    (stepV src dst d k).prevY ≤ (stepV src dst d k).y ∧
    (((stepV src dst d k).xAfter = (stepV src dst d k).prevX ∧
        (stepV src dst d k).yAfter = (stepV src dst d k).prevY + 1 ∧
        (stepV src dst d k).op = ADD) ∨
      ((stepV src dst d k).xAfter = (stepV src dst d k).prevX + 1 ∧
        (stepV src dst d k).yAfter = (stepV src dst d k).prevY ∧
        (stepV src dst d k).op = DELETE)) := by
  obtain ⟨_, _, _, n, hn, _⟩ := snake_frontierV src dst d k hk
  simp only [stepV]
  rcases startXf_cases (frontierV src dst d) d k hk with ⟨h1, h2, h3, _⟩ | ⟨h1, h2, h3, _⟩
  · rw [h3, h1]
    rw [h1] at hn
    refine ⟨by omega, by omega, Or.inl ⟨rfl, by ring, by simp⟩⟩
  · rw [h3, h1]
    rw [h1] at hn
    have c2 : ¬ (frontierV src dst d (k - 1) + 1 = frontierV src dst d (k - 1)) := by omega
    refine ⟨by omega, by omega, Or.inr ⟨rfl, by ring, by simp [c2]⟩⟩

theorem scriptKeys_stepV (src dst : List String) (d : Nat) (k : Int) (hk : InKeys (d + 1) k) :
    ∀ key, key ∈ scriptKeys (stepV src dst d k).lastV (stepV src dst d k).d
        (stepV src dst d k).x (stepV src dst d k).y →
      ((stepV src dst d k).lastV.lookup key).isSome = true := by
  intro key hmem
  have hl : ∀ k', InKeys d k' →
      (frontierUpTo src dst d (d + 1)).get k' = frontierV src dst d k' :=
    fun k' hk' => frontierUpTo_full_get src dst d k' hk'
  have e2 : frontierV src dst (d + 1) k - (frontierV src dst (d + 1) k - k) = k := by ring
  simp only [stepV, scriptKeys, e2, prevDiag_eq, (startXf_congr _ _ d _ hk hl).2] at hmem ⊢
  have hin : InKeys d key := by
    rw [List.mem_append] at hmem
    rcases hmem with hmem | hmem
    · unfold InKeys at hk ⊢
      push_cast at hk
      split at hmem
      · simp at hmem
      · split at hmem
        · simp at hmem; omega
        · simp at hmem
    · simp only [List.mem_singleton] at hmem
      rcases startXf_cases (frontierV src dst d) d k hk with ⟨_, h2, h3, _⟩ | ⟨_, h2, h3, _⟩
      · rw [hmem, h3]; exact h2
      · rw [hmem, h3]; exact h2
  rw [frontierUpTo_full_lookup src dst d key hin]
  rfl

/-! ## The entries of the trace -/

theorem traceV_getElem (src dst : List String) (D : Nat) (hD : found src dst D) (d : Nat)
    (f : Frontier) (h : (traceV src dst D).v[d]? = some f) :
    (d < D ∧ f = frontierUpTo src dst d (d + 1)) ∨
    (d = D ∧ ∃ js : Nat, js ≤ D ∧
      (src.length : Int) - dst.length = -(D : Int) + 2 * (js : Int) ∧
      f = frontierUpTo src dst D (js + 1)) := by
  rcases Nat.lt_trichotomy d D with hlt | heq | hgt
  · left
    have := traceV_index src dst D d hlt
    rw [index_natCast, h] at this
    exact ⟨hlt, Option.some.inj this⟩
  · right
    subst heq
    obtain ⟨js, hjs1, hjs2, hjs3⟩ := found_index src dst d hD
    refine ⟨rfl, js, hjs1, hjs2, ?_⟩
    simp only [traceV, hjs3] at h
    rw [List.getElem?_append_right (by simp)] at h
    simp at h
    exact h.symm
  · exfalso
    have hl := traceV_length src dst D
    have : (traceV src dst D).v[d]? = none := List.getElem?_eq_none (by omega)
    rw [this] at h
    simp at h

/-- An entry of a frontier of the trace is the value of the complete frontier
on a diagonal of its depth. -/
theorem traceV_entry (src dst : List String) (D : Nat) (hD : found src dst D) (d : Nat)
    (f : Frontier) (h : (traceV src dst D).v[d]? = some f) (k x : Int) (hmem : (k, x) ∈ f) :
    d ≤ D ∧ InKeys d k ∧ x = frontierV src dst d k ∧ f.lookup k = some x := by
  rcases traceV_getElem src dst D hD d f h with ⟨hlt, hf⟩ | ⟨heq, js, hjs, _, hf⟩
  · subst hf
    obtain ⟨j, hj, e⟩ := mem_frontierUpTo src dst d _ _ hmem
    simp only [Prod.mk.injEq] at e
    obtain ⟨e1, e2⟩ := e
    subst e1
    refine ⟨by omega, (InKeys_iff d _).mpr ⟨j, by omega, rfl⟩, e2, ?_⟩
    rw [e2]
    exact frontierUpTo_lookup src dst d _ j hj
  · subst hf
    subst heq
    obtain ⟨j, hj, e⟩ := mem_frontierUpTo src dst d _ _ hmem
    simp only [Prod.mk.injEq] at e
    obtain ⟨e1, e2⟩ := e
    subst e1
    refine ⟨le_refl _, (InKeys_iff d _).mpr ⟨j, by omega, rfl⟩, e2, ?_⟩
    rw [e2]
    exact frontierUpTo_lookup src dst d _ j hj

theorem traceV_index_zero_lookup (src dst : List String) (D : Nat) (hD : found src dst D) :
    ∃ v0, index (traceV src dst D).v 0 = some v0 ∧
      v0.lookup 0 = some (frontierV src dst 0 0) := by
  rcases Nat.eq_zero_or_pos D with h0 | h0
  · subst h0
    have hk := hD.1
    unfold InKeys at hk
    have e : (src.length : Int) - dst.length = 0 := by simp at hk; omega
    refine ⟨frontierUpTo src dst 0 1, ?_, ?_⟩
    · simp [traceV, index, e]
    · simp [frontierUpTo, Frontier.set, List.lookup]
  · refine ⟨frontierUpTo src dst 0 1, ?_, ?_⟩
    · exact_mod_cast traceV_index src dst D 0 h0
    · simp [frontierUpTo, Frontier.set, List.lookup]

theorem createTrace_eq_traceV (src dst : List String) (D : Nat) (t : trace)
    (h1 : createTrace src dst = some (traceV src dst D)) (h2 : createTrace src dst = some t) :
    t = traceV src dst D := by
  rw [h1] at h2
  exact (Option.some.inj h2).symm

/-! ## Paths inside the edit graph -/

theorem GridReach.toReach {src dst : List String} {d : Nat} {x y : Int}
    (h : GridReach src dst d x y) :
    Reach src dst d x y ∧ x ≤ (src.length : Int) ∧ y ≤ (dst.length : Int) := by
  induction h with
  | zero => exact ⟨Reach.zero, by omega, by omega⟩
  | diag _ hm ih =>
    have := matchAt_bounds hm
    exact ⟨Reach.diag ih.1 hm, by omega, by omega⟩
  | right _ hb ih => exact ⟨Reach.right ih.1, hb, ih.2.2⟩
  | down _ hb ih => exact ⟨Reach.down ih.1, ih.2.1, hb⟩

theorem Reach.toGrid {src dst : List String} {d : Nat} {x y : Int}
    (h : Reach src dst d x y) :
    x ≤ (src.length : Int) → y ≤ (dst.length : Int) → GridReach src dst d x y := by
  induction h with
  | zero => intro _ _; exact GridReach.zero
  | diag _ hm ih =>
    intro hx hy
    exact GridReach.diag (ih (by omega) (by omega)) hm
  | right _ ih =>
    intro hx hy
    exact GridReach.right (ih (by omega) hy) hx
  | down _ ih =>
    intro hx hy
    exact GridReach.down (ih hx (by omega)) hy

/-! ## The common prefix -/

theorem matchAt_cons_succ (a b : String) (s t : List String) (i j : Nat) :
    matchAt (a :: s) (b :: t) ((i + 1 : Nat) : Int) ((j + 1 : Nat) : Int) ↔
      matchAt s t (i : Int) (j : Int) := by
  rw [matchAt_natCast, matchAt_natCast]
  simp

theorem matchAt_cons_zero (a b : String) (s t : List String) :
    matchAt (a :: s) (b :: t) ((0 : Nat) : Int) ((0 : Nat) : Int) ↔ a = b := by
  rw [matchAt_natCast]
  simp

theorem commonPrefixLen_unique :
    ∀ (src dst : List String) (n : Nat),
      (∀ i : Nat, i < n → matchAt src dst (i : Int) (i : Int)) →
      ¬ matchAt src dst (n : Int) (n : Int) → n = commonPrefixLen src dst := by
  intro src
  induction src with
  | nil =>
    intro dst n h1 _
    simp only [commonPrefixLen]
    by_contra hne
    have := (matchAt_natCast [] dst 0 0).mp (h1 0 (by omega))
    simp at this
  | cons a s ih =>
    intro dst n h1 h2
    cases dst with
    | nil =>
      simp only [commonPrefixLen]
      by_contra hne
      have := (matchAt_natCast (a :: s) [] 0 0).mp (h1 0 (by omega))
      simp at this
    | cons b t =>
      simp only [commonPrefixLen]
      by_cases hab : a = b
      · simp only [hab, if_true]
        cases n with
        | zero => exact absurd ((matchAt_cons_zero a b s t).mpr hab) h2
        | succ m =>
          congr 1
          apply ih t m
          · intro i hi
            exact (matchAt_cons_succ a b s t i i).mp (h1 (i + 1) (by omega))
          · intro hm
            exact h2 ((matchAt_cons_succ a b s t m m).mpr hm)
      · simp only [hab, if_false]
        by_contra hne
        exact hab ((matchAt_cons_zero a b s t).mp (h1 0 (by omega)))

theorem frontierV_zero_eq_commonPrefixLen (src dst : List String) :
    frontierV src dst 0 0 = (commonPrefixLen src dst : Int) := by
  obtain ⟨n, _, h2, h3, h4⟩ := slide_spec src dst 0 0 (le_refl 0) (le_refl 0)
  have e : frontierV src dst 0 0 = (n : Int) := by simp [frontierV, h2]
  rw [e]
  simp only [zero_add] at h3 h4
  rw [commonPrefixLen_unique src dst n h3 h4]

theorem eq_of_commonPrefixLen_eq_length :
    ∀ (src dst : List String), commonPrefixLen src dst = src.length →
      src.length = dst.length → src = dst := by
  intro src
  induction src with
  | nil =>
    intro dst _ h
    exact (List.length_eq_zero.mp h.symm).symm
  | cons a s ih =>
    intro dst h1 h2
    cases dst with
    | nil => simp at h2
    | cons b t =>
      simp only [commonPrefixLen, List.length_cons] at h1 h2
      by_cases hab : a = b
      · simp only [hab, if_true] at h1
        rw [hab, ih t (by omega) (by omega)]
      · simp only [hab, if_false] at h1
        omega

theorem pathOps_head (src dst : List String) :
    ∀ (d : Nat) (k : Int), pathOps src dst d k = [] ∨
      ∃ r, pathOps src dst d k = ADD :: r ∨ pathOps src dst d k = DELETE :: r := by
  intro d
  induction d with
  | zero => intro k; left; rfl
  | succ d ih =>
    intro k
    right
    have hpo : pathOps src dst (d + 1) k =
        pathOps src dst d (prevDiagf (frontierV src dst d) ((d : Int) + 1) k) ++
          [if startXf (frontierV src dst d) ((d : Int) + 1) k =
              frontierV src dst d (prevDiagf (frontierV src dst d) ((d : Int) + 1) k)
            then ADD else DELETE] ++
          List.replicate (frontierV src dst (d + 1) k -
            startXf (frontierV src dst d) ((d : Int) + 1) k).toNat NOOP := rfl
    rw [hpo]
    rcases ih (prevDiagf (frontierV src dst d) ((d : Int) + 1) k) with h | ⟨r, h | h⟩
    · rw [h]
      simp only [List.nil_append, List.singleton_append]
      split
      · exact ⟨_, Or.inl rfl⟩
      · exact ⟨_, Or.inr rfl⟩
    · rw [h]
      exact ⟨_, Or.inl (by rw [List.append_assoc, List.cons_append])⟩
    · rw [h]
      exact ⟨_, Or.inr (by rw [List.append_assoc, List.cons_append])⟩

theorem stepsV_ops (src dst : List String) :
    ∀ (d : Nat) (k : Int), countOp NOOP ((stepsV src dst d k).map (fun s => s.op)) = 0 := by
  intro d
  induction d with
  | zero => intro k; rfl
  | succ d ih =>
    intro k
    have := ih (prevDiagf (frontierV src dst d) ((d : Int) + 1) k)
    simp only [countOp] at this ⊢
    simp only [stepsV, stepV, List.map_cons, List.count_cons, this]
    split <;> simp

/-! ## The claims about the trace builder and the backward walk -/

/-- C11: `createTrace` returns a trace for all inputs, empty ones included,
every element read `src[x]`, `dst[y]` of the depth-0 scan and of the snakes
has `0 <= x < len(src)` and `0 <= y < len(dst)`, and the `x` and `y = x - k`
computed before a snake are never negative. -/
theorem createTrace_reads_in_range (src dst : List String) :
    (∃ t, createTrace src dst = some t) ∧
    (∀ p, p ∈ createTraceReads src dst →
      0 ≤ p.1 ∧ p.1 < (src.length : Int) ∧ 0 ≤ p.2 ∧ p.2 < (dst.length : Int)) ∧
    (∀ v, v ∈ createTraceVisits src dst → 0 ≤ (visitStart v).1 ∧ 0 ≤ (visitStart v).2) := by
  obtain ⟨D, hle, hD, hmin, _, _, h2, _⟩ := shortestEditScript_spec src dst
  have hstart : ∀ v, v ∈ createTraceVisits src dst →
      0 ≤ (visitStart v).1 ∧ 0 ≤ (visitStart v).2 := by
    intro v hv
    obtain ⟨d', _, e1, e2, hk⟩ := createTraceVisits_mem src dst D hle hD hmin v hv
    obtain ⟨vd, vl, vk⟩ := v
    simp only at e1 e2 hk
    subst e1 e2
    rw [visitStart_eq src dst d' vk hk]
    obtain ⟨_, h0, h1, _⟩ := snake_frontierV src dst d' vk hk
    exact ⟨h0, h1⟩
  refine ⟨⟨_, h2⟩, ?_, hstart⟩
  intro p hp
  unfold createTraceReads at hp
  rw [List.mem_append] at hp
  rcases hp with hp | hp
  · have := firstDiffReads_mem src dst _ _ _ hp
    omega
  · rw [List.mem_flatMap] at hp
    obtain ⟨v, hv, hpv⟩ := hp
    have h3 := snakeReads_mem src dst _ _ _ _ hpv
    have h4 := hstart v hv
    omega

/-- An instance of C11: the read of `src[1]` and `dst[1]` in the depth-0 scan
of `["a", "b"]` against `["a", "c"]`. -/
theorem createTrace_reads_in_range_witness :
    ((1 : Int), (1 : Int)) ∈ createTraceReads ["a", "b"] ["a", "c"] ∧
      (0 ≤ ((1 : Int), (1 : Int)).1 ∧
        ((1 : Int), (1 : Int)).1 < ((["a", "b"] : List String).length : Int) ∧
        0 ≤ ((1 : Int), (1 : Int)).2 ∧
        ((1 : Int), (1 : Int)).2 < ((["a", "c"] : List String).length : Int)) :=
  ⟨by decide, (createTrace_reads_in_range ["a", "b"] ["a", "c"]).2.1 _ (by decide)⟩

/-- C12: an entry `k -> x` of frontier `d` of the trace whose point lies in
the edit graph is furthest reaching: `(x, x - k)` ends a path with exactly `d`
insert/delete moves, and no point further on the diagonal does. -/
theorem frontier_furthest_reaching (src dst : List String) :
    (∃ t, createTrace src dst = some t) ∧
    ∀ t, createTrace src dst = some t →
      ∀ (d : Nat) (f : Frontier) (k x : Int), t.v[d]? = some f → (k, x) ∈ f →
        x ≤ (src.length : Int) → x - k ≤ (dst.length : Int) →
        GridReach src dst d x (x - k) ∧
          ∀ x' : Int, x < x' → ¬ GridReach src dst d x' (x' - k) := by
  obtain ⟨D, _, hD, _, _, _, h2, _⟩ := shortestEditScript_spec src dst
  refine ⟨⟨_, h2⟩, ?_⟩
  intro t ht d f k x hf hmem hx hy
  have e := createTrace_eq_traceV src dst D t h2 ht
  subst e
  obtain ⟨_, hk, hxv, _⟩ := traceV_entry src dst D hD d f hf k x hmem
  subst hxv
  refine ⟨(frontierV_sound src dst d k hk).1.toGrid hx hy, ?_⟩
  intro x' hlt hg
  have := frontierV_furthest src dst hg.toReach.1
  have e2 : x' - (x' - k) = k := by ring
  rw [e2] at this
  omega

/-- An instance of C12: the entry `1 -> 1` of frontier 1 for `["a"]` against
`["x"]`. -/
theorem frontier_furthest_reaching_witness :
    createTrace ["a"] ["x"] =
        some { v := [[(0, 0)], [(1, 1), (-1, 0)], [(0, 1), (-2, 0)]], srcLen := 1, dstLen := 1 } ∧
      ((1 : Int), (1 : Int)) ∈ ([(1, 1), (-1, 0)] : Frontier) ∧
      (GridReach ["a"] ["x"] 1 1 (1 - 1) ∧
        ∀ x' : Int, 1 < x' → ¬ GridReach ["a"] ["x"] 1 x' (x' - 1)) :=
  ⟨by decide, by decide,
    (frontier_furthest_reaching ["a"] ["x"]).2
      { v := [[(0, 0)], [(1, 1), (-1, 0)], [(0, 1), (-2, 0)]], srcLen := 1, dstLen := 1 }
      (by decide) 1 [(1, 1), (-1, 0)] 1 1 (by decide) (by decide) (by decide) (by decide)⟩

/-- The statement of C13 fails: for `["a"]` against `["x"]` the search ends
at depth 2 on diagonal 0, and the frontier of depth 2 has no entry for
diagonal 2. -/
theorem frontier_keys_counterexample :
    ∃ t f, createTrace ["a"] ["x"] = some t ∧ t.v.length = 3 ∧ t.v[2]? = some f ∧
      InKeys 2 2 ∧ f.lookup 2 = none :=
  ⟨{ v := [[(0, 0)], [(1, 1), (-1, 0)], [(0, 1), (-2, 0)]], srcLen := 1, dstLen := 1 },
    [(0, 1), (-2, 0)], by decide, by decide, by decide, by unfold InKeys; decide, by decide⟩

/-- C13 (amended): every frontier of a depth below the final depth has an
entry for every diagonal `k` in `-d, -d + 2, ..., d`; the frontier of the final
depth has an entry exactly for the diagonals up to that of the end point,
`len(src) - len(dst)`. -/
theorem frontier_keys (src dst : List String) :
    (∃ t, createTrace src dst = some t) ∧
    ∀ t, createTrace src dst = some t →
      ∀ (d : Nat) (f : Frontier) (k : Int), t.v[d]? = some f → InKeys d k →
        (d + 1 < t.v.length → (f.lookup k).isSome = true) ∧
        (d + 1 = t.v.length →
          ((f.lookup k).isSome = true ↔ k ≤ (src.length : Int) - (dst.length : Int))) := by
  obtain ⟨D, _, hD, _, _, _, h2, _⟩ := shortestEditScript_spec src dst
  refine ⟨⟨_, h2⟩, ?_⟩
  intro t ht d f k hf hk
  have e := createTrace_eq_traceV src dst D t h2 ht
  subst e
  rw [traceV_length]
  rcases traceV_getElem src dst D hD d f hf with ⟨hlt, hfe⟩ | ⟨heq, js, hjs, hjs2, hfe⟩
  · subst hfe
    refine ⟨fun _ => ?_, fun h => by omega⟩
    rw [frontierUpTo_full_lookup src dst d k hk]
    rfl
  · subst hfe
    subst heq
    refine ⟨fun h => by omega, fun _ => ?_⟩
    obtain ⟨j, hj1, hj2⟩ := (InKeys_iff d k).mp hk
    subst hj2
    by_cases hle : j ≤ js
    · rw [frontierUpTo_lookup src dst d (js + 1) j (by omega)]
      simp only [Option.isSome_some, true_iff]
      omega
    · rw [frontierUpTo_lookup_none src dst d (js + 1) _ (fun j' hj' => by omega)]
      simp only [Option.isSome_none, Bool.false_eq_true, false_iff]
      omega

/-- An instance of C13 (amended) on the frontier of the final depth 2 for
`["a"]` against `["x"]`: diagonal 0, that of the end point, has an entry, and
diagonal 2 has none. -/
theorem frontier_keys_witness :
    createTrace ["a"] ["x"] =
        some { v := [[(0, 0)], [(1, 1), (-1, 0)], [(0, 1), (-2, 0)]], srcLen := 1, dstLen := 1 } ∧
      InKeys 2 0 ∧ InKeys 2 2 ∧
      ((([(0, 1), (-2, 0)] : Frontier).lookup 0).isSome = true ↔
        (0 : Int) ≤ ((["a"] : List String).length : Int) - ((["x"] : List String).length : Int)) ∧
      ((([(0, 1), (-2, 0)] : Frontier).lookup 2).isSome = true ↔
        (2 : Int) ≤ ((["a"] : List String).length : Int) - ((["x"] : List String).length : Int)) :=
  ⟨by decide, by unfold InKeys; decide, by unfold InKeys; decide,
    ((frontier_keys ["a"] ["x"]).2
      { v := [[(0, 0)], [(1, 1), (-1, 0)], [(0, 1), (-2, 0)]], srcLen := 1, dstLen := 1 }
      (by decide) 2 [(0, 1), (-2, 0)] 0 (by decide) (by unfold InKeys; decide)).2 (by decide),
    ((frontier_keys ["a"] ["x"]).2
      { v := [[(0, 0)], [(1, 1), (-1, 0)], [(0, 1), (-2, 0)]], srcLen := 1, dstLen := 1 }
      (by decide) 2 [(0, 1), (-2, 0)] 2 (by decide) (by unfold InKeys; decide)).2 (by decide)⟩

/-- The statement of C14 fails: for `["a"]` against `["b", "c"]` frontier 2
holds `2 -> 2` with `x = 2 > len(src)`, and frontier 3 holds `-3 -> 0` with
`x - k = 3 > len(dst)`. -/
theorem frontier_coordinates_counterexample :
    ∃ t f2 f3, createTrace ["a"] ["b", "c"] = some t ∧
      t.v[2]? = some f2 ∧ ((2 : Int), (2 : Int)) ∈ f2 ∧
      ¬ ((2 : Int) ≤ ((["a"] : List String).length : Int)) ∧
      t.v[3]? = some f3 ∧ ((-3 : Int), (0 : Int)) ∈ f3 ∧
      ¬ ((0 : Int) - (-3) ≤ ((["b", "c"] : List String).length : Int)) :=
  ⟨{ v := [[(0, 0)], [(1, 1), (-1, 0)], [(2, 2), (0, 1), (-2, 0)], [(-1, 1), (-3, 0)]],
      srcLen := 1, dstLen := 2 },
    [(2, 2), (0, 1), (-2, 0)], [(-1, 1), (-3, 0)],
    by decide, by decide, by decide, by decide, by decide, by decide, by decide⟩

/-- C14 (amended): every entry `k -> x` of a frontier of the trace has
`0 <= x` and `0 <= x - k`, and at least one of `x <= len(src)` and
`x - k <= len(dst)`. -/
theorem frontier_coordinates (src dst : List String) :
    (∃ t, createTrace src dst = some t) ∧
    ∀ t, createTrace src dst = some t →
      ∀ (d : Nat) (f : Frontier) (k x : Int), t.v[d]? = some f → (k, x) ∈ f →
        0 ≤ x ∧ 0 ≤ x - k ∧ (x ≤ (src.length : Int) ∨ x - k ≤ (dst.length : Int)) := by
  obtain ⟨D, _, hD, _, hmin, _, h2, _⟩ := shortestEditScript_spec src dst
  refine ⟨⟨_, h2⟩, ?_⟩
  intro t ht d f k x hf hmem
  have e := createTrace_eq_traceV src dst D t h2 ht
  subst e
  obtain ⟨hd, hk, hxv, _⟩ := traceV_entry src dst D hD d f hf k x hmem
  subst hxv
  have hr := (frontierV_sound src dst d k hk).1
  obtain ⟨h0, h1, _⟩ := hr.bounds
  refine ⟨h0, h1, ?_⟩
  by_contra hc
  push_neg at hc
  obtain ⟨d', h5, h6⟩ := hr.clip
  have e1 : min (frontierV src dst d k) (src.length : Int) = src.length := by omega
  have e2 : min (frontierV src dst d k - k) (dst.length : Int) = dst.length := by omega
  rw [e1, e2] at h5 h6
  exact hmin d' (by omega) h5

/-- An instance of C14 (amended): the entry `-3 -> 0` of frontier 3 for `["a"]`
against `["b", "c"]`. -/
theorem frontier_coordinates_witness :
    createTrace ["a"] ["b", "c"] =
        some { v := [[(0, 0)], [(1, 1), (-1, 0)], [(2, 2), (0, 1), (-2, 0)], [(-1, 1), (-3, 0)]],
               srcLen := 1, dstLen := 2 } ∧
      ((-3 : Int), (0 : Int)) ∈ ([(-1, 1), (-3, 0)] : Frontier) ∧
      ((0 : Int) ≤ 0 ∧ (0 : Int) ≤ 0 - (-3) ∧
        ((0 : Int) ≤ ((["a"] : List String).length : Int) ∨
          (0 : Int) - (-3) ≤ ((["b", "c"] : List String).length : Int))) :=
  ⟨by decide, by decide,
    (frontier_coordinates ["a"] ["b", "c"]).2
      { v := [[(0, 0)], [(1, 1), (-1, 0)], [(2, 2), (0, 1), (-2, 0)], [(-1, 1), (-3, 0)]],
        srcLen := 1, dstLen := 2 }
      (by decide) 3 [(-1, 1), (-3, 0)] (-3) 0 (by decide) (by decide)⟩

/-- C15: `shortestEditScript(src, dst)` is as many `NOOP`s as the longest
common prefix of `src` and `dst` is long, followed by a remainder that is
empty or begins with an `ADD` or a `DELETE`. -/
theorem shortestEditScript_prefix (src dst : List String) :
    ∃ rest, shortestEditScript src dst =
        some (List.replicate (commonPrefixLen src dst) NOOP ++ rest) ∧
      (rest = [] ∨ ∃ r, rest = ADD :: r ∨ rest = DELETE :: r) := by
  obtain ⟨D, _, _, _, _, _, _, hs⟩ := shortestEditScript_spec src dst
  refine ⟨pathOps src dst D ((src.length : Int) - (dst.length : Int)), ?_, pathOps_head _ _ _ _⟩
  rw [hs]
  simp [scriptV, frontierV_zero_eq_commonPrefixLen]

/-- C16: the number of `ADD` and `DELETE` operations of the script is the
final search depth, the number of frontiers of the trace minus one: the
backward loop runs once per depth and emits one `ADD` or `DELETE` each time,
and no other `ADD` or `DELETE` is emitted. -/
theorem edits_eq_depth (src dst : List String) :
    ∃ t s, createTrace src dst = some t ∧ shortestEditScript src dst = some s ∧
      edits s + 1 = t.v.length ∧
      (createScriptSteps t).length = edits s ∧
      countOp NOOP ((createScriptSteps t).map (fun st => st.op)) = 0 := by
  obtain ⟨D, _, hD, _, _, _, h2, hs⟩ := shortestEditScript_spec src dst
  have h1 := scriptV_replay src dst D hD
  refine ⟨_, _, h2, hs, ?_, ?_, ?_⟩
  · rw [h1.2, traceV_length]
  · rw [h1.2, createScriptSteps_spec src dst D hD, stepsV_length]
  · rw [createScriptSteps_spec src dst D hD]
    exact stepsV_ops src dst D _

/-- C17: `createTrace` returns a trace with exactly one frontier if and only
if `src` and `dst` are equal, and then the frontier maps diagonal 0 to
`len(src)`. -/
theorem createTrace_depth_zero_iff (src dst : List String) :
    ∃ t, createTrace src dst = some t ∧ (t.v.length = 1 ↔ src = dst) ∧
      (src = dst → t.v = [[(0, (src.length : Int))]]) := by
  obtain ⟨D, _, hD, hmin, _, _, h2, _⟩ := shortestEditScript_spec src dst
  have hD0 : src = dst → D = 0 := by
    intro e
    subst e
    by_contra hne
    exact hmin 0 (by omega) (found_zero_self src)
  refine ⟨_, h2, ?_, ?_⟩
  · rw [traceV_length]
    constructor
    · intro hl
      have h0 : D = 0 := by omega
      subst h0
      have hk := hD.1
      have hv := hD.2
      unfold InKeys at hk
      have e : (src.length : Int) - dst.length = 0 := by simp at hk; omega
      rw [e, frontierV_zero_eq_commonPrefixLen] at hv
      exact eq_of_commonPrefixLen_eq_length src dst (by exact_mod_cast hv) (by omega)
    · intro e
      rw [hD0 e]
  · intro e
    have h0 := hD0 e
    subst h0
    subst e
    simp [traceV, frontierUpTo, Frontier.set, frontierV_zero_self]

/-- An instance of C17 on equal inputs. -/
theorem createTrace_depth_zero_iff_witness :
    ∃ t, createTrace ["a", "b"] ["a", "b"] = some t ∧ t.v.length = 1 ∧
      t.v = [[(0, ((["a", "b"] : List String).length : Int))]] := by
  obtain ⟨t, h1, h2, h3⟩ := createTrace_depth_zero_iff ["a", "b"] ["a", "b"]
  exact ⟨t, h1, h2.mpr rfl, h3 rfl⟩

/-- C19: the backward loop of `createScript` over the trace of `createTrace`
runs through the depths `D, ..., 1`; at each of them the point on entry is the
entry of its diagonal in frontier `d`, the predecessor is not beyond it, and
after the `NOOP` loop one unit move remains: `x == prevX`, `y == prevY + 1`
with an `ADD`, or `x == prevX + 1`, `y == prevY` with a `DELETE`. -/
theorem createScript_walk (src dst : List String) :
    (∃ t, createTrace src dst = some t) ∧
    ∀ t, createTrace src dst = some t →
      (createScriptSteps t).map (fun s => s.d) =
        (List.range (t.v.length - 1)).map (fun (i : Nat) => (t.v.length : Int) - 1 - (i : Int)) ∧
      ∀ s, s ∈ createScriptSteps t →
        (∃ f, index t.v s.d = some f ∧ f.lookup (s.x - s.y) = some s.x) ∧
        s.prevX ≤ s.x ∧ s.prevY ≤ s.y ∧
        ((s.xAfter = s.prevX ∧ s.yAfter = s.prevY + 1 ∧ s.op = ADD) ∨
          (s.xAfter = s.prevX + 1 ∧ s.yAfter = s.prevY ∧ s.op = DELETE)) := by
  obtain ⟨D, _, hD, _, _, _, h2, _⟩ := shortestEditScript_spec src dst
  refine ⟨⟨_, h2⟩, ?_⟩
  intro t ht
  have e := createTrace_eq_traceV src dst D t h2 ht
  subst e
  rw [createScriptSteps_spec src dst D hD, traceV_length]
  constructor
  · rw [stepsV_depths]
    simp only [Nat.add_sub_cancel]
    apply List.map_congr_left
    intro i _
    push_cast
    ring
  · intro s hs
    obtain ⟨d, k, es, hk, hor⟩ := stepsV_mem src dst D _ s hD.1 hs
    subst es
    obtain ⟨f1, f2, f3⟩ := stepV_facts src dst d k hk
    refine ⟨?_, f1, f2, f3⟩
    have e2 : frontierV src dst (d + 1) k - (frontierV src dst (d + 1) k - k) = k := by ring
    have e3 : (d : Int) + 1 = ((d + 1 : Nat) : Int) := by push_cast; ring
    simp only [stepV, e2]
    rw [e3]
    rcases hor with hlt | ⟨heq, hk0⟩
    · exact ⟨_, traceV_index src dst D (d + 1) hlt,
        frontierUpTo_full_lookup src dst (d + 1) k hk⟩
    · subst heq
      subst hk0
      obtain ⟨last, hl1, hl2⟩ := traceV_last src dst (d + 1) hD
      refine ⟨last, hl1, ?_⟩
      rw [hl2, hD.2]

/-- An instance of C19: the single iteration of the backward loop for `["a"]`
against `[]`, a `DELETE`. -/
theorem createScript_walk_witness :
    createTrace ["a"] [] =
        some { v := [[(0, 0)], [(1, 1), (-1, 0)]], srcLen := 1, dstLen := 0 } ∧
      createScriptSteps { v := [[(0, 0)], [(1, 1), (-1, 0)]], srcLen := 1, dstLen := 0 } =
        [{ d := 1, x := 1, y := 0, lastV := [(0, 0)], prevX := 0, prevY := 0,
           xAfter := 1, yAfter := 0, op := DELETE }] ∧
      (∃ f : Frontier, index ([[(0, 0)], [(1, 1), (-1, 0)]] : List Frontier) (1 : Int) = some f ∧
        f.lookup ((1 : Int) - 0) = some (1 : Int)) ∧
      ((1 : Int) = 0 + 1 ∧ (0 : Int) = 0 ∧ DELETE = DELETE) :=
  ⟨by decide, by decide,
    (((createScript_walk ["a"] []).2
      { v := [[(0, 0)], [(1, 1), (-1, 0)]], srcLen := 1, dstLen := 0 } (by decide)).2
      { d := 1, x := 1, y := 0, lastV := [(0, 0)], prevX := 0, prevY := 0,
        xAfter := 1, yAfter := 0, op := DELETE } (by decide)).1,
    (((createScript_walk ["a"] []).2
      { v := [[(0, 0)], [(1, 1), (-1, 0)]], srcLen := 1, dstLen := 0 } (by decide)).2
      { d := 1, x := 1, y := 0, lastV := [(0, 0)], prevX := 0, prevY := 0,
        xAfter := 1, yAfter := 0, op := DELETE } (by decide)).2.2.2.resolve_left (by decide)⟩

/-- C20: every frontier lookup of `createTrace` and of `createScript` over
the trace of `createTrace` reads a key that is stored in the frontier:
`lastV[k + 1]` and `lastV[k - 1]` in the trace builder, the keys of the
tie-break and `lastV[prevK]` in the backward loop, and `trace.v[0][0]`. -/
theorem frontier_lookups_stored (src dst : List String) :
    (∃ t, createTrace src dst = some t) ∧
    (∀ v, v ∈ createTraceVisits src dst →
      ∀ key, key ∈ switchKeys v.1 v.2.2 → (v.2.1.lookup key).isSome = true) ∧
    ∀ t, createTrace src dst = some t →
      (∀ s, s ∈ createScriptSteps t →
        ∀ key, key ∈ scriptKeys s.lastV s.d s.x s.y → (s.lastV.lookup key).isSome = true) ∧
      ∃ v0, index t.v 0 = some v0 ∧ (v0.lookup 0).isSome = true := by
  obtain ⟨D, hle, hD, hmin, _, _, h2, _⟩ := shortestEditScript_spec src dst
  refine ⟨⟨_, h2⟩, ?_, ?_⟩
  · intro v hv key hkey
    obtain ⟨d', _, e1, e2, hk⟩ := createTraceVisits_mem src dst D hle hD hmin v hv
    obtain ⟨vd, vl, vk⟩ := v
    simp only at e1 e2 hk hkey ⊢
    subst e1 e2
    rw [frontierUpTo_full_lookup src dst d' key (switchKeys_inKeys d' vk hk key hkey)]
    rfl
  · intro t ht
    have e := createTrace_eq_traceV src dst D t h2 ht
    subst e
    constructor
    · intro s hs key hkey
      rw [createScriptSteps_spec src dst D hD] at hs
      obtain ⟨d, k, es, hk, _⟩ := stepsV_mem src dst D _ s hD.1 hs
      subst es
      exact scriptKeys_stepV src dst d k hk key hkey
    · obtain ⟨v0, h1, h3⟩ := traceV_index_zero_lookup src dst D hD
      exact ⟨v0, h1, by rw [h3]; rfl⟩

/-- An instance of C20: the lookups `lastV[-1]` and `lastV[1]` of the trace
builder on diagonal 0 at depth 2 for `["a"]` against `["x"]`. -/
theorem frontier_lookups_stored_witness :
    ((2 : Int), ([(1, 1), (-1, 0)] : Frontier), (0 : Int)) ∈ createTraceVisits ["a"] ["x"] ∧
      switchKeys 2 0 = [-1, 1] ∧
      (([(1, 1), (-1, 0)] : Frontier).lookup (-1)).isSome = true ∧
      (([(1, 1), (-1, 0)] : Frontier).lookup 1).isSome = true :=
  ⟨by decide, by decide,
    (frontier_lookups_stored ["a"] ["x"]).2.1 (2, [(1, 1), (-1, 0)], 0) (by decide) (-1)
      (by decide),
    (frontier_lookups_stored ["a"] ["x"]).2.1 (2, [(1, 1), (-1, 0)], 0) (by decide) 1
      (by decide)⟩

/-! ## One line per element -/

theorem writeDiff_linesFrom (src dst : List String) (opts : DiffOptions)
    (script : List opType) (h : inRange src dst script 0 0 = true) :
    writeDiff src dst script opts =
      some (concatLines (((linesFrom src dst script 0 0).filter
        (fun l => printed opts l.1)).map (fun l => l.2))) := by
  obtain ⟨i', j', h'⟩ := writeLoop_spec src dst opts script 0 0 "" h
  unfold writeDiff
  simp only [Nat.cast_zero] at h'
  rw [h']
  simp

/-- With the `ADD` and `NOOP` lines printed, a script that replays to the
end gives one line for each remaining element of the destination. -/
theorem linesFrom_dst (src dst : List String) :
    ∀ (s : List opType) (i j : Nat),
      replay src dst s i j = some (src.length, dst.length) →
      ∃ prefixes : List String, prefixes.length = dst.length - j ∧
        prefixes.all (fun p => decide (p = "+ " ∨ p = "  ")) = true ∧
        ((linesFrom src dst s i j).filter (fun l =>
            printed { PrintAdd := true, PrintNoOp := true, PrintDelete := false } l.1)).map
          (fun l => l.2) =
          List.zipWith (fun p e => p ++ e ++ "\n") prefixes (dst.drop j) := by
  intro s
  induction s with
  | nil =>
    intro i j h
    simp [replay] at h
    exact ⟨[], by simp [h.2], by simp, by simp [linesFrom]⟩
  | cons op s ih =>
    intro i j h
    cases op
    · simp only [replay] at h
      split at h
      · next hj =>
        obtain ⟨ps, h1, h2, h3⟩ := ih _ _ h
        refine ⟨"+ " :: ps, by simp only [List.length_cons, h1]; omega, ?_, ?_⟩
        · simp only [List.all_cons, h2, Bool.and_true]; decide
        · rw [List.drop_eq_getElem_cons hj, List.zipWith_cons_cons, ← h3]
          simp [linesFrom, printed, lineOf, List.getElem?_eq_getElem hj]
      · simp at h
    · simp only [replay] at h
      split at h
      · obtain ⟨ps, h1, h2, h3⟩ := ih _ _ h
        refine ⟨ps, h1, h2, ?_⟩
        rw [← h3]
        simp [linesFrom, printed]
      · simp at h
    · simp only [replay] at h
      split at h
      · next hc =>
        obtain ⟨hi, hj, he⟩ := hc
        obtain ⟨ps, h1, h2, h3⟩ := ih _ _ h
        rw [List.getElem?_eq_getElem hi, List.getElem?_eq_getElem hj] at he
        have he' : src[i] = dst[j] := by simpa using he
        refine ⟨"  " :: ps, by simp only [List.length_cons, h1]; omega, ?_, ?_⟩
        · simp only [List.all_cons, h2, Bool.and_true]; decide
        · rw [List.drop_eq_getElem_cons hj, List.zipWith_cons_cons, ← h3]
          simp [linesFrom, printed, lineOf, List.getElem?_eq_getElem hi, he']
      · simp at h

/-- With the `DELETE` and `NOOP` lines printed, a script that replays to the
end gives one line for each remaining element of the source. -/
theorem linesFrom_src (src dst : List String) :
    ∀ (s : List opType) (i j : Nat),
      replay src dst s i j = some (src.length, dst.length) →
      ∃ prefixes : List String, prefixes.length = src.length - i ∧
        prefixes.all (fun p => decide (p = "- " ∨ p = "  ")) = true ∧
        ((linesFrom src dst s i j).filter (fun l =>
            printed { PrintAdd := false, PrintNoOp := true, PrintDelete := true } l.1)).map
          (fun l => l.2) =
          List.zipWith (fun p e => p ++ e ++ "\n") prefixes (src.drop i) := by
  intro s
  induction s with
  | nil =>
    intro i j h
    simp [replay] at h
    exact ⟨[], by simp [h.1], by simp, by simp [linesFrom]⟩
  | cons op s ih =>
    intro i j h
    cases op
    · simp only [replay] at h
      split at h
      · obtain ⟨ps, h1, h2, h3⟩ := ih _ _ h
        refine ⟨ps, h1, h2, ?_⟩
        rw [← h3]
        simp [linesFrom, printed]
      · simp at h
    · simp only [replay] at h
      split at h
      · next hi =>
        obtain ⟨ps, h1, h2, h3⟩ := ih _ _ h
        refine ⟨"- " :: ps, by simp only [List.length_cons, h1]; omega, ?_, ?_⟩
        · simp only [List.all_cons, h2, Bool.and_true]; decide
        · rw [List.drop_eq_getElem_cons hi, List.zipWith_cons_cons, ← h3]
          simp [linesFrom, printed, lineOf, List.getElem?_eq_getElem hi]
      · simp at h
    · simp only [replay] at h
      split at h
      · next hc =>
        obtain ⟨hi, hj, he⟩ := hc
        obtain ⟨ps, h1, h2, h3⟩ := ih _ _ h
        refine ⟨"  " :: ps, by simp only [List.length_cons, h1]; omega, ?_, ?_⟩
        · simp only [List.all_cons, h2, Bool.and_true]; decide
        · rw [List.drop_eq_getElem_cons hi, List.zipWith_cons_cons, ← h3]
          simp [linesFrom, printed, lineOf, List.getElem?_eq_getElem hi]
      · simp at h

/-- C18: with `PrintNoOp` on, `GenerateDiff` with `PrintAdd` on and
`PrintDelete` off returns one line per element of `dst`, in order, each `"+ "`
or two spaces followed by the element and `"\n"`; with `PrintDelete` on and
`PrintAdd` off it returns one line per element of `src`, each `"- "` or two
spaces followed by the element and `"\n"`. -/
theorem GenerateDiff_lines (src dst : List String) :
    (∃ prefixes : List String, prefixes.length = dst.length ∧
      prefixes.all (fun p => decide (p = "+ " ∨ p = "  ")) = true ∧
      GenerateDiff src dst { PrintAdd := true, PrintNoOp := true, PrintDelete := false } =
        some (concatLines (List.zipWith (fun p e => p ++ e ++ "\n") prefixes dst))) ∧
    (∃ prefixes : List String, prefixes.length = src.length ∧
      prefixes.all (fun p => decide (p = "- " ∨ p = "  ")) = true ∧
      GenerateDiff src dst { PrintAdd := false, PrintNoOp := true, PrintDelete := true } =
        some (concatLines (List.zipWith (fun p e => p ++ e ++ "\n") prefixes src))) := by
  obtain ⟨D, _, hD, _, _, _, _, hs⟩ := shortestEditScript_spec src dst
  have hrep := (scriptV_replay src dst D hD).1
  have hr := inRange_of_replay src dst _ 0 0 _ hrep
  constructor
  · obtain ⟨ps, h1, h2, h3⟩ := linesFrom_dst src dst _ 0 0 hrep
    refine ⟨ps, by simpa using h1, h2, ?_⟩
    simp only [GenerateDiff, hs]
    rw [writeDiff_linesFrom src dst _ _ hr, h3]
    simp
  · obtain ⟨ps, h1, h2, h3⟩ := linesFrom_src src dst _ 0 0 hrep
    refine ⟨ps, by simpa using h1, h2, ?_⟩
    simp only [GenerateDiff, hs]
    rw [writeDiff_linesFrom src dst _ _ hr, h3]
    simp

end Myersdiff
